import Mathlib

/-!
# Verification of the Quantum-DarkWeb ledger core

Shallow embedding of the hash-chained ledger of
`src/quantum_blockchain_dashboard.py` (and the duplicated validator of
`src/quantum_blockchain_modified_dashboard.py`), together with models of the
crypto envelope (`simulate_qkd_key` / `encrypt_data` / `decrypt_data`) and the
anonymization gate (`anonymize_data` / `check_ethical_compliance`).

Python machine-level conventions used throughout the embedding:

* Python `str` values are Lean `String`s; Python `bytes` are `List Nat`
  (each element `< 256`).
* `time.time()` results are only ever observed through their string rendering
  (inside the f-string hashed by `calculate_hash`) or through an
  environment-dependent local-calendar formatter (in `to_dict`), so block and
  log timestamps are carried as the strings the environment would render.
* fallible Python code is embedded with `Except`, the error value naming the
  exception raised.
-/

namespace QDW

/-! ## Small helpers: Python string slicing, hex rendering, UTF-8 -/

/-- Python string slicing `s[:n]`: the first `n` characters (all of `s` when
`n` exceeds its length). -/
def strTake (s : String) (n : Nat) : String :=
  ⟨s.data.take n⟩

/-- The lowercase hex character for a value `< 16` (as produced by Python's
`%x` formatting and `hexdigest`). -/
def hexChar (n : Nat) : Char :=
  if n < 10 then Char.ofNat (48 + n) else Char.ofNat (87 + n)

/-- Two lowercase hex characters for one byte. -/
def byteHexChars (b : Nat) : List Char :=
  [hexChar (b / 16), hexChar (b % 16)]

/-- Lowercase hex rendering of a byte sequence, as `hashlib`'s `hexdigest`. -/
def bytesToHex (bs : List Nat) : String :=
  ⟨bs.flatMap byteHexChars⟩

/-- UTF-8 encoding of one character (Python `str.encode()` is UTF-8). -/
def utf8Char (c : Char) : List Nat :=
  let n := c.toNat
  if n < 0x80 then [n]
  else if n < 0x800 then
    [0xC0 ||| (n >>> 6), 0x80 ||| (n &&& 0x3F)]
  else if n < 0x10000 then
    [0xE0 ||| (n >>> 12), 0x80 ||| ((n >>> 6) &&& 0x3F), 0x80 ||| (n &&& 0x3F)]
  else
    [0xF0 ||| (n >>> 18), 0x80 ||| ((n >>> 12) &&& 0x3F),
     0x80 ||| ((n >>> 6) &&& 0x3F), 0x80 ||| (n &&& 0x3F)]

/-- UTF-8 encoding of a string: the bytes Python's `str.encode()` yields. -/
def utf8Encode (s : String) : List Nat :=
  s.data.flatMap utf8Char

/-! ## SHA-256 (`hashlib.sha256`)

Executable SHA-256 over byte lists, words carried as `Nat` reduced mod
`2 ^ 32` wherever overflow matters. -/

/-- Right rotation of a 32-bit word (the operand is assumed `< 2 ^ 32`). -/
def rotr32 (n x : Nat) : Nat :=
  (x >>> n) ||| ((x <<< (32 - n)) % 4294967296)

/-- Bitwise complement within 32 bits. -/
def not32 (x : Nat) : Nat := x ^^^ 0xFFFFFFFF

/-- The 64 SHA-256 round constants (decimal renderings of the FIPS 180-4
words). -/
def sha256K : List Nat :=
  [1116352408, 1899447441, 3049323471, 3921009573,
   961987163, 1508970993, 2453635748, 2870763221,
   3624381080, 310598401, 607225278, 1426881987,
   1925078388, 2162078206, 2614888103, 3248222580,
   3835390401, 4022224774, 264347078, 604807628,
   770255983, 1249150122, 1555081692, 1996064986,
   2554220882, 2821834349, 2952996808, 3210313671,
   3336571891, 3584528711, 113926993, 338241895,
   666307205, 773529912, 1294757372, 1396182291,
   1695183700, 1986661051, 2177026350, 2456956037,
   2730485921, 2820302411, 3259730800, 3345764771,
   3516065817, 3600352804, 4094571909, 275423344,
   430227734, 506948616, 659060556, 883997877,
   958139571, 1322822218, 1537002063, 1747873779,
   1955562222, 2024104815, 2227730452, 2361852424,
   2428436474, 2756734187, 3204031479, 3329325298]

/-- Working state of the compression function: eight 32-bit words. -/
structure Sha256State where
  a : Nat
  b : Nat
  c : Nat
  d : Nat
  e : Nat
  f : Nat
  g : Nat
  h : Nat
deriving Repr, DecidableEq

/-- The initial hash value H⁽⁰⁾ (decimal renderings). -/
def sha256Init : Sha256State :=
  ⟨1779033703, 3144134277, 1013904242, 2773480762,
   1359893119, 2600822924, 528734635, 1541459225⟩

/-- One round of the SHA-256 compression function. -/
def sha256Round (st : Sha256State) (wk : Nat × Nat) : Sha256State :=
  let s1 := rotr32 6 st.e ^^^ rotr32 11 st.e ^^^ rotr32 25 st.e
  let ch := (st.e &&& st.f) ^^^ (not32 st.e &&& st.g)
  let temp1 := (st.h + s1 + ch + wk.2 + wk.1) % 4294967296
  let s0 := rotr32 2 st.a ^^^ rotr32 13 st.a ^^^ rotr32 22 st.a
  let maj := (st.a &&& st.b) ^^^ (st.a &&& st.c) ^^^ (st.b &&& st.c)
  let temp2 := (s0 + maj) % 4294967296
  ⟨(temp1 + temp2) % 4294967296, st.a, st.b, st.c,
   (st.d + temp1) % 4294967296, st.e, st.f, st.g⟩

/-- Pack a byte list into 32-bit big-endian words. -/
def bytesToWords : List Nat → List Nat
  | b0 :: b1 :: b2 :: b3 :: rest =>
      (((b0 * 256 + b1) * 256 + b2) * 256 + b3) :: bytesToWords rest
  | _ => []

/-- One step of the message-schedule extension: append word `t` from words
`t-2`, `t-7`, `t-15`, `t-16`. -/
def scheduleStep (w : List Nat) : List Nat :=
  let t := w.length
  let w2 := w.getD (t - 2) 0
  let w7 := w.getD (t - 7) 0
  let w15 := w.getD (t - 15) 0
  let w16 := w.getD (t - 16) 0
  let s0 := rotr32 7 w15 ^^^ rotr32 18 w15 ^^^ (w15 >>> 3)
  let s1 := rotr32 17 w2 ^^^ rotr32 19 w2 ^^^ (w2 >>> 10)
  w ++ [(w16 + s0 + w7 + s1) % 4294967296]

/-- Iterate the schedule extension `n` times (from 16 to 64 words). -/
def scheduleExtend : Nat → List Nat → List Nat
  | 0, w => w
  | n + 1, w => scheduleExtend n (scheduleStep w)

/-- Process one padded 64-byte chunk. -/
def sha256Chunk (h : Sha256State) (chunk : List Nat) : Sha256State :=
  let w := scheduleExtend 48 (bytesToWords chunk)
  let st := (w.zip sha256K).foldl sha256Round h
  ⟨(h.a + st.a) % 4294967296, (h.b + st.b) % 4294967296,
   (h.c + st.c) % 4294967296, (h.d + st.d) % 4294967296,
   (h.e + st.e) % 4294967296, (h.f + st.f) % 4294967296,
   (h.g + st.g) % 4294967296, (h.h + st.h) % 4294967296⟩

/-- Process the padded message 64 bytes at a time; the fuel (first argument)
bounds the number of chunks and is structural so the kernel can evaluate. -/
def sha256Loop : Nat → Sha256State → List Nat → Sha256State
  | 0, h, _ => h
  | _ + 1, h, [] => h
  | n + 1, h, x :: rest =>
      sha256Loop n (sha256Chunk h ((x :: rest).take 64)) ((x :: rest).drop 64)

/-- Big-endian bytes of the 64-bit message length. -/
def lenBytes64 (n : Nat) : List Nat :=
  [(n >>> 56) % 256, (n >>> 48) % 256, (n >>> 40) % 256, (n >>> 32) % 256,
   (n >>> 24) % 256, (n >>> 16) % 256, (n >>> 8) % 256, n % 256]

/-- Big-endian bytes of one 32-bit word. -/
def wordBytes (w : Nat) : List Nat :=
  [(w >>> 24) % 256, (w >>> 16) % 256, (w >>> 8) % 256, w % 256]

/-- SHA-256 padding: `0x80`, zeros to 56 mod 64, then the bit length. -/
def sha256Pad (msg : List Nat) : List Nat :=
  msg ++ [0x80] ++ List.replicate ((119 - msg.length % 64) % 64) 0
      ++ lenBytes64 (8 * msg.length)

/-- The SHA-256 digest (32 bytes) of a byte list. -/
def sha256Bytes (msg : List Nat) : List Nat :=
  let padded := sha256Pad msg
  let st := sha256Loop padded.length sha256Init padded
  wordBytes st.a ++ wordBytes st.b ++ wordBytes st.c ++ wordBytes st.d ++
  wordBytes st.e ++ wordBytes st.f ++ wordBytes st.g ++ wordBytes st.h

/-- `hashlib.sha256(s.encode()).hexdigest()`: the lowercase hex digest of the
UTF-8 encoding of `s`. -/
def sha256hex (s : String) : String :=
  bytesToHex (sha256Bytes (utf8Encode s))

/-! ## Python values

Block payloads in the dashboard are either `str` (genesis placeholder, JSON
insight strings) or `bytes` (Fernet ciphertexts). Python renders a value into
the hashed f-string via `str()`; for `bytes` that is its `repr`. -/

/-- A Python value that can sit in a `Block`'s `data` slot. -/
inductive PyVal where
  | str (s : String)
  | bytes (bs : List Nat)
deriving Repr, DecidableEq

/-- Characters `repr` emits for one byte inside a bytes literal delimited by
quote `q`: backslash and the delimiter are escaped, tab/newline/return use
their short escapes, other printable ASCII is literal, the rest is `\xNN`. -/
def byteReprChars (q : Char) (b : Nat) : List Char :=
  if b = 0x5C then [Char.ofNat 0x5C, Char.ofNat 0x5C]
  else if b = q.toNat then [Char.ofNat 0x5C, q]
  else if b = 9 then [Char.ofNat 0x5C, Char.ofNat 116]
  else if b = 10 then [Char.ofNat 0x5C, Char.ofNat 110]
  else if b = 13 then [Char.ofNat 0x5C, Char.ofNat 114]
  else if 0x20 ≤ b && b < 0x7F then [Char.ofNat b]
  else Char.ofNat 0x5C :: Char.ofNat 120 :: byteHexChars b

/-- Python `repr` of a `bytes` object (what `str(b)` and hence an f-string
yields): `b'...'`, switching to double quotes when the bytes contain a single
quote but no double quote. -/
def pyBytesRepr (bs : List Nat) : String :=
  let q := if bs.contains 0x27 && !(bs.contains 0x22) then Char.ofNat 0x22 else Char.ofNat 0x27
  ⟨Char.ofNat 98 :: q :: (bs.flatMap (byteReprChars q) ++ [q])⟩

/-- Python `str()` of a payload value, as interpolated by an f-string. -/
def pyStr : PyVal → String
  | .str s => s
  | .bytes bs => pyBytesRepr bs

/-! ## `Block` (`quantum_blockchain_dashboard.py`, lines 41–64)

`timestamp` carries the string rendering of the `time.time()` float captured
at construction, since the float is only ever observed through `str()` (in
`calculate_hash`) or through the environment's local-calendar formatter (in
`to_dict`). -/

structure Block where
  index : Nat
  data : PyVal
  previous_hash : String
  timestamp : String
  user : String
  role : String
  hash : String
deriving Repr, DecidableEq

/-- The f-string `calculate_hash` hashes:
`f"{self.index}{self.data}{self.previous_hash}{self.timestamp}{self.user}{self.role}"`. -/
def hashInput (index : Nat) (data : PyVal) (previous_hash timestamp user role : String) : String :=
  toString index ++ pyStr data ++ previous_hash ++ timestamp ++ user ++ role

/-- `Block.calculate_hash`: SHA-256 hex digest of the encoded f-string over
the block's current field values. -/
def Block.calculate_hash (b : Block) : String :=
  sha256hex (hashInput b.index b.data b.previous_hash b.timestamp b.user b.role)

/-- `Block.__init__(self, index, data, previous_hash, timestamp, role, user)`:
stores the fields (note the constructor takes `role` before `user`) and then
computes `self.hash = self.calculate_hash()`. -/
def Block.init (index : Nat) (data : PyVal) (previous_hash timestamp role user : String) : Block :=
  let b : Block := { index, data, previous_hash, timestamp, user, role, hash := "" }
  { b with hash := b.calculate_hash }

/-- The record `Block.to_dict` builds (pandas renders it for display). -/
structure BlockSummary where
  Index : Nat
  Timestamp : String
  Hash : String
  PreviousHash : String
  User : String
  Role : String
  Data : String
deriving Repr, DecidableEq

/-- `datetime.fromtimestamp(ts).strftime('%Y-%m-%d %H:%M:%S')`: an
environment-dependent (local-timezone) rendering of the captured timestamp;
modelled as the carried timestamp string since no claim observes the rendered
form. -/
def formatLocalTime (t : String) : String := t

/-- `Block.to_dict`. Its `Data` entry is
`self.data[:100] + b"...".decode() if isinstance(self.data, bytes) else str(self.data)[:100]`,
which Python parses as
`(self.data[:100] + "...") if isinstance(self.data, bytes) else (str(self.data)[:100])`;
the bytes branch adds a `str` to a `bytes` slice and raises
`TypeError: can't concat str to bytes`, while the str branch truncates to 100
characters with no trailing marker. -/
def Block.to_dict (b : Block) : Except String BlockSummary :=
  match b.data with
  | .bytes _ => .error "TypeError: cant concat str to bytes"
  | .str s =>
      .ok { Index := b.index, Timestamp := formatLocalTime b.timestamp,
            Hash := b.hash, PreviousHash := b.previous_hash,
            User := b.user, Role := b.role, Data := strTake s 100 }

/-! ## `Blockchain` (`quantum_blockchain_dashboard.py`, lines 66–100) -/

/-- One entry of `access_logs`; `timestamp` carries the string
`datetime.now().strftime(...)` produced at logging time. -/
structure AccessLogEntry where
  user : String
  role : String
  action : String
  timestamp : String
deriving Repr, DecidableEq

structure Blockchain where
  chain : List Block
  access_logs : List AccessLogEntry
deriving Repr, DecidableEq

/-- `Blockchain.create_genesis_block`:
`Block(0, "Genesis Block", "0", time.time(), "system", "admin")` — by the
constructor's parameter order this sets `role = "system"`, `user = "admin"`;
`t` is the rendering of the captured `time.time()`. -/
def create_genesis_block (t : String) : Block :=
  Block.init 0 (.str "Genesis Block") "0" t "system" "admin"

/-- `Blockchain.__init__`: a one-block chain holding the genesis block and an
empty access log. -/
def Blockchain.init (t : String) : Blockchain :=
  { chain := [create_genesis_block t], access_logs := [] }

/-- `Blockchain.log_access`: append one entry to `access_logs`. -/
def log_access (logs : List AccessLogEntry) (user role action t : String) :
    List AccessLogEntry :=
  logs ++ [{ user, role, action, timestamp := t }]

/-- `Blockchain.add_block(data, user, role)`: reads `chain[-1]` (raising
`IndexError` on an empty chain, before any mutation — the error value carries
the state at the raise), builds the next block with `index = len(chain)` and
`previous_hash = chain[-1].hash`, appends it, then logs the access.
`tBlock` and `tLog` are the renderings of the two clock reads. -/
def Blockchain.add_block (bc : Blockchain) (data : PyVal) (user role tBlock tLog : String) :
    Except (String × Blockchain) (Blockchain × Block) :=
  match bc.chain.getLast? with
  | none => .error ("IndexError: list index out of range", bc)
  | some previous_block =>
      let new_block := Block.init bc.chain.length data previous_block.hash tBlock role user
      let bc1 : Blockchain := { bc with chain := bc.chain ++ [new_block] }
      let bc2 : Blockchain :=
        { bc1 with access_logs := log_access bc1.access_logs user role "store_data" tLog }
      .ok (bc2, new_block)

/-- The loop body of `Blockchain.is_chain_valid` walked over consecutive
pairs: Python's `for i in range(1, len(chain))` reads `chain[i]` and
`chain[i-1]`, returning `False` from either check, else continuing. -/
def validFrom : Block → List Block → Bool
  | _, [] => true
  | previous, current :: rest =>
      if current.hash != current.calculate_hash then false
      else if current.previous_hash != previous.hash then false
      else validFrom current rest

/-- `Blockchain.is_chain_valid` of `quantum_blockchain_dashboard.py`:
two separate early-return checks per non-genesis block. -/
def Blockchain.is_chain_valid (bc : Blockchain) : Bool :=
  match bc.chain with
  | [] => true
  | g :: rest => validFrom g rest

/-- The loop body of the modified dashboard's validator: the same two
comparisons combined into one `or` per block. -/
def validFromModified : Block → List Block → Bool
  | _, [] => true
  | previous, current :: rest =>
      if current.hash != current.calculate_hash || current.previous_hash != previous.hash
      then false
      else validFromModified current rest

/-- `Blockchain.is_chain_valid` of `quantum_blockchain_modified_dashboard.py`
(its `Block`/`Blockchain` classes are textually identical apart from this
method, so it is embedded over the same state type). -/
def is_chain_valid_modified (bc : Blockchain) : Bool :=
  match bc.chain with
  | [] => true
  | g :: rest => validFromModified g rest

/-- `Blockchain.get_all_blocks`: the list comprehension
`[block.to_dict() for block in self.chain]`, an exception from any `to_dict`
propagating out. -/
def Blockchain.get_all_blocks (bc : Blockchain) : Except String (List BlockSummary) :=
  bc.chain.mapM Block.to_dict

/-! ## Governance and anonymization (lines 104–113)

Both functions touch only the `wallet_address` column of the dataframe, so
the dataframe is embedded as that column: a list of address strings. -/

/-- `anonymize_data`: replace each wallet address by the first 10 characters
of its SHA-256 hex digest. -/
def anonymize_data (wallet_addresses : List String) : List String :=
  wallet_addresses.map (fun x => strTake (sha256hex x) 10)

/-- Substring occurrence: does `needle` occur contiguously in `haystack`? -/
def containsSub (needle : List Char) : List Char → Bool
  | [] => needle.isEmpty
  | c :: rest => needle.isPrefixOf (c :: rest) || containsSub needle rest

/-- `df['wallet_address'].str.contains('addr')` for one entry: the regex
`'addr'` has no metacharacters, so it is a substring test. -/
def containsAddr (s : String) : Bool :=
  containsSub "addr".data s.data

/-- `check_ethical_compliance`: raise `ValueError` when any address still
contains `"addr"`, else return `True`. -/
def check_ethical_compliance (wallet_addresses : List String) : Except String Bool :=
  if wallet_addresses.any containsAddr then .error "Data not fully anonymized!"
  else .ok true

/-! ## `simulate_qkd_key` (lines 28–30) -/

/-- One character of the URL-safe base64 alphabet. -/
def b64Char (n : Nat) : Char :=
  if n < 26 then Char.ofNat (65 + n)
  else if n < 52 then Char.ofNat (97 + (n - 26))
  else if n < 62 then Char.ofNat (48 + (n - 52))
  else if n = 62 then Char.ofNat 45
  else Char.ofNat 95

/-- URL-safe base64 of a byte list, three bytes to four characters with `=`
padding. -/
def b64Groups : List Nat → List Char
  | [] => []
  | [a] => [b64Char (a / 4), b64Char (a % 4 * 16), Char.ofNat 61, Char.ofNat 61]
  | [a, b] => [b64Char (a / 4), b64Char (a % 4 * 16 + b / 16), b64Char (b % 16 * 4), Char.ofNat 61]
  | a :: b :: c :: rest =>
      b64Char (a / 4) :: b64Char (a % 4 * 16 + b / 16) ::
      b64Char (b % 16 * 4 + c / 64) :: b64Char (c % 64) :: b64Groups rest

/-- `base64.urlsafe_b64encode`. -/
def urlsafe_b64encode (bs : List Nat) : String :=
  ⟨b64Groups bs⟩

/-- `simulate_qkd_key`: URL-safe base64 of the 32 random bytes drawn by
`secrets.token_bytes(32)`; the randomness is the `raw_key` argument. -/
def simulate_qkd_key (raw_key : List Nat) : String :=
  urlsafe_b64encode raw_key

/-! ## JSON values (`json.dumps` / `json.loads`)

Modelled from the spec: the Python standard library's `json` module is not
part of the repository's files. The spec requires payloads serialized "to a
canonical byte form" with round-trip correctness, so the serializer and
parser are implemented concretely here over the payload grammar the program
exercises: null, booleans, integers, floats, strings, arrays, objects
(association lists in insertion order, which is how Python's
insertion-ordered `dict` observes them).

A finite Python float is represented by the decimal decomposition of its
`repr`: a sign, the significant digits `d₁d₂…dₙ` (no leading or trailing
zeros; `[0]` for zero) and the decimal exponent `e` of the value
`±d₁.d₂…dₙ × 10^e`. CPython's `repr` prints the SHORTEST decimal string that
reads back (`float()`) to the same double, so this decomposition is an
injective image of the finite doubles, every finite double has exactly one
canonical decomposition, and on these shortest literals `float()` agrees
with exact decimal normalization — which is how the parser below models it.
`json.dumps` renders a float exactly as `repr` does (positional for decimal
exponents `-4 ≤ e < 16`, with a trailing `.0` when nothing follows the
point; scientific `d₁.d₂…dₙe±XX` otherwise, the exponent zero-padded to two
digits). -/

/-- A canonically serializable payload value. A float is carried as its
`repr` decomposition: sign, significant digits, decimal exponent. -/
inductive JVal where
  | jnull
  | jbool (b : Bool)
  | jnum (n : Int)
  | jfloat (neg : Bool) (ds : List Nat) (e : Int)
  | jstr (s : String)
  | jarr (xs : List JVal)
  | jobj (members : List (String × JVal))
deriving Repr

/-- The double-quote character. -/
def quoteC : Char := Char.ofNat 34

/-- The backslash character. -/
def bslashC : Char := Char.ofNat 92

/-- The decimal digit character for `m < 10` (reduced mod 10 for totality, so
a digit character always results). -/
def digitC (m : Nat) : Char := Char.ofNat (48 + m % 10)

/-- Decimal digits of `n` accumulated onto `acc`; the fuel is structural so
the kernel can evaluate (any fuel above the digit count gives the digits). -/
def natDigitsAux : Nat → Nat → List Char → List Char
  | 0, _, acc => acc
  | fuel + 1, n, acc =>
      if n < 10 then digitC n :: acc
      else natDigitsAux fuel (n / 10) (digitC (n % 10) :: acc)

/-- Decimal digit characters of a natural number (no leading zeros). -/
def natDigits (n : Nat) : List Char := natDigitsAux (n + 1) n []

/-- Python `str()` of an integer: an optional minus sign and the decimal
digits. -/
def intChars (n : Int) : List Char :=
  if n < 0 then Char.ofNat 45 :: natDigits n.natAbs else natDigits n.toNat

/-- The digits of a scientific-notation exponent, zero-padded to at least
two (`05`, `20`, `100`). -/
def expDigits (a : Nat) : List Char :=
  if a < 10 then '0' :: [digitC a] else natDigits a

/-- The exponent field of a scientific-notation float `repr`: an explicit
sign and the zero-padded magnitude (`e-05`, `e+20`, `e-100`). -/
def expChars (e : Int) : List Char :=
  (if e < 0 then Char.ofNat 45 else '+') :: expDigits e.natAbs

/-- `repr` of the absolute value of a finite float given its shortest-repr
significant digits and decimal exponent `d₁.d₂…dₙ × 10^e`: positional for
`-4 ≤ e < 16` (with a trailing `.0` when no digit falls after the point),
scientific otherwise. -/
def floatAbsChars (ds : List Nat) (e : Int) : List Char :=
  if e < -4 ∨ 16 ≤ e then
    digitC (ds.headD 0) ::
      ((if ds.length ≤ 1 then [] else '.' :: (ds.tail.map digitC)) ++ 'e' :: expChars e)
  else if 0 ≤ e then
    if ds.length ≤ e.toNat + 1 then
      ds.map digitC ++ List.replicate (e.toNat + 1 - ds.length) '0' ++ ['.', '0']
    else (ds.map digitC).take (e.toNat + 1) ++ '.' :: (ds.map digitC).drop (e.toNat + 1)
  else '0' :: '.' :: (List.replicate (e.natAbs - 1) '0' ++ ds.map digitC)

/-- Four lowercase hex digits of `n < 0x10000` (a `\uXXXX` escape body). -/
def hex4 (n : Nat) : List Char :=
  [hexChar (n / 4096 % 16), hexChar (n / 256 % 16), hexChar (n / 16 % 16), hexChar (n % 16)]

/-- `json.dumps` rendering of one character with `ensure_ascii=True`: the
short escapes for quote, backslash and the usual control characters, plain
printable ASCII verbatim, `\uXXXX` for the rest, non-BMP characters as a
surrogate pair. -/
def escChar (c : Char) : List Char :=
  let n := c.toNat
  if n = 34 then [bslashC, quoteC]
  else if n = 92 then [bslashC, bslashC]
  else if n = 8 then [bslashC, Char.ofNat 98]
  else if n = 9 then [bslashC, Char.ofNat 116]
  else if n = 10 then [bslashC, Char.ofNat 110]
  else if n = 12 then [bslashC, Char.ofNat 102]
  else if n = 13 then [bslashC, Char.ofNat 114]
  else if 32 ≤ n && n < 127 then [c]
  else if n < 0x10000 then bslashC :: Char.ofNat 117 :: hex4 n
  else
    bslashC :: Char.ofNat 117 :: hex4 (0xD800 + (n - 0x10000) / 1024) ++
    bslashC :: Char.ofNat 117 :: hex4 (0xDC00 + (n - 0x10000) % 1024)

/-- The characters of a dumped JSON string: quoted, each character escaped. -/
def dumpStr (s : String) : List Char :=
  quoteC :: (s.data.flatMap escChar ++ [quoteC])

/-! `dumpVal` and companions: `json.dumps` with its default separators `", "`
and `": "` and `ensure_ascii=True`, as a character list. -/

mutual

def dumpVal : JVal → List Char
  | .jnull => "null".data
  | .jbool true => "true".data
  | .jbool false => "false".data
  | .jnum n => intChars n
  | .jfloat neg ds e => (if neg then [Char.ofNat 45] else []) ++ floatAbsChars ds e
  | .jstr s => dumpStr s
  | .jarr [] => "[]".data
  | .jarr (x :: xs) => '[' :: (dumpVal x ++ dumpElems xs) ++ [']']
  | .jobj [] => "\x7b\x7d".data
  | .jobj (m :: ms) => Char.ofNat 123 :: (dumpMember m ++ dumpMembers ms) ++ [Char.ofNat 125]

def dumpElems : List JVal → List Char
  | [] => []
  | x :: xs => ',' :: ' ' :: (dumpVal x ++ dumpElems xs)

def dumpMember : String × JVal → List Char
  | (k, v) => dumpStr k ++ ':' :: ' ' :: dumpVal v

def dumpMembers : List (String × JVal) → List Char
  | [] => []
  | m :: ms => ',' :: ' ' :: (dumpMember m ++ dumpMembers ms)

end

/-- `json.dumps(data)`. -/
def jsonDumps (v : JVal) : String := ⟨dumpVal v⟩

/-- JSON whitespace (the characters `json.loads` skips between tokens). -/
def isWsC (c : Char) : Bool :=
  c = ' ' || c = Char.ofNat 9 || c = Char.ofNat 10 || c = Char.ofNat 13

/-- Drop leading JSON whitespace. -/
def skipWs : List Char → List Char
  | [] => []
  | c :: rest => if isWsC c then skipWs rest else c :: rest

/-- Decimal digit test. -/
def isDigitC (c : Char) : Bool := 48 ≤ c.toNat && c.toNat ≤ 57

/-- Hex digit test (both cases, as `json.loads` accepts). -/
def isHexC (c : Char) : Bool :=
  (48 ≤ c.toNat && c.toNat ≤ 57) || (97 ≤ c.toNat && c.toNat ≤ 102) ||
  (65 ≤ c.toNat && c.toNat ≤ 70)

/-- Value of a hex digit character. -/
def hexVal (c : Char) : Nat :=
  if c.toNat ≤ 57 then c.toNat - 48
  else if 97 ≤ c.toNat then c.toNat - 87
  else c.toNat - 55

/-- Scan a maximal run of decimal digit characters off the front of the
input. -/
def takeDigitChars : List Char → List Char × List Char
  | [] => ([], [])
  | c :: rest =>
      if isDigitC c then (c :: (takeDigitChars rest).1, (takeDigitChars rest).2)
      else ([], c :: rest)

/-- The numeric value of a run of decimal digit characters. -/
def digitsVal (cs : List Char) : Nat :=
  cs.foldl (fun a c => a * 10 + (c.toNat - 48)) 0

/-- Apply an optional minus sign to a parsed magnitude. -/
def intSign (neg : Bool) (n : Nat) : Int :=
  if neg then -(n : Int) else (n : Int)

/-- Does the remainder begin a fraction part? -/
def fracStarts : List Char → Bool
  | [] => false
  | c :: _ => c = '.'

/-- Does the remainder begin an exponent part? -/
def expStarts : List Char → Bool
  | [] => false
  | c :: _ => c = 'e' || c = 'E'

/-- A remainder that starts with no digit (so a digit scan stops at once). -/
def noDigitHead : List Char → Bool
  | [] => true
  | c :: _ => !isDigitC c

/-- A remainder that cannot extend a just-parsed number literal: it does not
begin with a digit, a fraction point or an exponent marker. -/
def numSafe : List Char → Bool
  | [] => true
  | c :: _ => !(isDigitC c || c = '.' || c = 'e' || c = 'E')

/-- The digit values of a run of digit characters. -/
def charsToDigits (cs : List Char) : List Nat :=
  cs.map (fun c => c.toNat - 48)

/-- Drop leading zero digits. -/
def dropZeros : List Nat → List Nat
  | [] => []
  | d :: r => if d = 0 then dropZeros r else d :: r

/-- The significant digits of a raw digit string: leading and trailing zeros
stripped. -/
def sigDigits (l : List Nat) : List Nat :=
  (dropZeros (dropZeros l).reverse).reverse

/-- How many trailing zeros follow the significant digits. -/
def trailZeros (l : List Nat) : Nat :=
  (dropZeros l).length - (dropZeros (dropZeros l).reverse).length

/-- The float `float()` yields on the decimal literal `±ip.fp × 10^ex`, as
its shortest-repr decomposition: the significant digits of `ip ++ fp` and
the normalized decimal exponent (all zero digits give the zero float, the
sign kept as `float` keeps `-0.0`). `repr` prints the shortest decimal that
reads back to a given double, so on every literal the serializer emits this
exact decimal normalization is precisely CPython's conversion. -/
def floatOfDecimal (neg : Bool) (ip fp : List Char) (ex : Int) : JVal :=
  if sigDigits (charsToDigits (ip ++ fp)) = [] then .jfloat neg [0] 0
  else
    .jfloat neg (sigDigits (charsToDigits (ip ++ fp)))
      ((sigDigits (charsToDigits (ip ++ fp))).length - 1 + ex - (fp.length : Int) +
        (trailZeros (charsToDigits (ip ++ fp)) : Int))

/-- The digit run of an exponent part (after `e` and its optional sign). -/
def parseExpDigits (neg : Bool) (ip fp : List Char) (esgn : Bool) (cs : List Char) :
    Except String (JVal × List Char) :=
  if (takeDigitChars cs).1.isEmpty then .error "Expecting digits in exponent"
  else
    .ok (floatOfDecimal neg ip fp (intSign esgn (digitsVal (takeDigitChars cs).1)),
      (takeDigitChars cs).2)

/-- An exponent part (after `e`/`E`): an optional sign, then digits. -/
def parseExpTail (neg : Bool) (ip fp : List Char) : List Char → Except String (JVal × List Char)
  | [] => .error "Expecting digits in exponent"
  | c :: r =>
      if c = Char.ofNat 45 then parseExpDigits neg ip fp true r
      else if c = '+' then parseExpDigits neg ip fp false r
      else parseExpDigits neg ip fp false (c :: r)

/-- A fraction part (after the point): digits, then an optional exponent. -/
def parseFracTail (neg : Bool) (ip : List Char) (cs : List Char) :
    Except String (JVal × List Char) :=
  if (takeDigitChars cs).1.isEmpty then .error "Expecting digits after decimal point"
  else if expStarts (takeDigitChars cs).2 then
    parseExpTail neg ip (takeDigitChars cs).1 ((takeDigitChars cs).2.tail)
  else .ok (floatOfDecimal neg ip (takeDigitChars cs).1 0, (takeDigitChars cs).2)

/-- A number literal after its optional minus sign: integer digits, then an
optional fraction and exponent. A bare integer literal yields a Python
`int`; any fraction or exponent yields a Python `float`. -/
def parseNumTail (neg : Bool) (cs : List Char) : Except String (JVal × List Char) :=
  if (takeDigitChars cs).1.isEmpty then .error "Expecting value"
  else if fracStarts (takeDigitChars cs).2 then
    parseFracTail neg (takeDigitChars cs).1 ((takeDigitChars cs).2.tail)
  else if expStarts (takeDigitChars cs).2 then
    parseExpTail neg (takeDigitChars cs).1 [] ((takeDigitChars cs).2.tail)
  else .ok (.jnum (intSign neg (digitsVal (takeDigitChars cs).1)), (takeDigitChars cs).2)

/-- Prepend a decoded character to a string-parse result. -/
def consStrResult (c : Char) :
    Except String (List Char × List Char) → Except String (List Char × List Char)
  | .error e => .error e
  | .ok (cs, r) => .ok (c :: cs, r)

/-- Parse the body of a JSON string (after the opening quote) up to and over
the closing quote, decoding escapes; surrogate pairs recombine into one
character, unpaired surrogates are rejected (Lean `Char` carries scalar
values only). Unescaped control characters are accepted (a superset of
`json.loads`' strict mode never exercised on serializer output). The fuel
(first argument) bounds the character count and is structural so the kernel
can evaluate; callers pass one beyond the input length. -/
def parseStringChars : Nat → List Char → Except String (List Char × List Char)
  | 0, _ => .error "Recursion limit"
  | _ + 1, [] => .error "Unterminated string"
  | fuel + 1, c :: rest =>
    if c = quoteC then .ok ([], rest)
    else if c = bslashC then
      match rest with
      | [] => .error "Unterminated string"
      | e :: rest2 =>
        if e = quoteC then consStrResult quoteC (parseStringChars fuel rest2)
        else if e = bslashC then consStrResult bslashC (parseStringChars fuel rest2)
        else if e = '/' then consStrResult '/' (parseStringChars fuel rest2)
        else if e = 'b' then consStrResult (Char.ofNat 8) (parseStringChars fuel rest2)
        else if e = 'f' then consStrResult (Char.ofNat 12) (parseStringChars fuel rest2)
        else if e = 'n' then consStrResult (Char.ofNat 10) (parseStringChars fuel rest2)
        else if e = 'r' then consStrResult (Char.ofNat 13) (parseStringChars fuel rest2)
        else if e = 't' then consStrResult (Char.ofNat 9) (parseStringChars fuel rest2)
        else if e = 'u' then
          match rest2 with
          | h1 :: h2 :: h3 :: h4 :: rest3 =>
            if isHexC h1 && isHexC h2 && isHexC h3 && isHexC h4 then
              let n := ((hexVal h1 * 16 + hexVal h2) * 16 + hexVal h3) * 16 + hexVal h4
              if 55296 ≤ n && n < 56320 then
                match rest3 with
                | e2 :: u2 :: g1 :: g2 :: g3 :: g4 :: rest4 =>
                  if e2 = bslashC && u2 = Char.ofNat 117 && isHexC g1 && isHexC g2 &&
                      isHexC g3 && isHexC g4 then
                    let n2 := ((hexVal g1 * 16 + hexVal g2) * 16 + hexVal g3) * 16 + hexVal g4
                    if 56320 ≤ n2 && n2 < 57344 then
                      consStrResult (Char.ofNat (65536 + (n - 55296) * 1024 + (n2 - 56320)))
                        (parseStringChars fuel rest4)
                    else .error "Unpaired surrogate"
                  else .error "Unpaired surrogate"
                | _ => .error "Unpaired surrogate"
              else if 56320 ≤ n && n < 57344 then .error "Unpaired surrogate"
              else consStrResult (Char.ofNat n) (parseStringChars fuel rest3)
            else .error "Invalid hex escape"
          | _ => .error "Invalid hex escape"
        else .error "Invalid escape"
    else consStrResult c (parseStringChars fuel rest)

/-- The tail of the keyword `null` (after its leading `n`). -/
def parseNullKw : List Char → Except String (JVal × List Char)
  | c1 :: c2 :: c3 :: r =>
      if c1 = 'u' && c2 = 'l' && c3 = 'l' then .ok (.jnull, r)
      else .error "Expecting value"
  | _ => .error "Expecting value"

/-- The tail of the keyword `true` (after its leading `t`). -/
def parseTrueKw : List Char → Except String (JVal × List Char)
  | c1 :: c2 :: c3 :: r =>
      if c1 = 'r' && c2 = 'u' && c3 = 'e' then .ok (.jbool true, r)
      else .error "Expecting value"
  | _ => .error "Expecting value"

/-- The tail of the keyword `false` (after its leading `f`). -/
def parseFalseKw : List Char → Except String (JVal × List Char)
  | c1 :: c2 :: c3 :: c4 :: r =>
      if c1 = 'a' && c2 = 'l' && c3 = 's' && c4 = 'e' then .ok (.jbool false, r)
      else .error "Expecting value"
  | _ => .error "Expecting value"

/-! `parseValue` and companions: recursive-descent `json.loads` value parser;
the fuel (first argument) bounds nesting plus element count and is structural
so the kernel can evaluate. Number literals follow the JSON grammar: integer
digits with an optional fraction and exponent; a bare integer yields a
Python `int`, any fraction or exponent a `float` (decimal-normalized by
`floatOfDecimal`, exactly `float()` on the shortest-repr literals the
serializer emits). -/

mutual

def parseValue : Nat → List Char → Except String (JVal × List Char)
  | 0, _ => .error "Recursion limit"
  | fuel + 1, cs =>
    match cs with
    | [] => .error "Expecting value"
    | c :: rest =>
      if c = 'n' then parseNullKw rest
      else if c = 't' then parseTrueKw rest
      else if c = 'f' then parseFalseKw rest
      else if c = quoteC then
        match parseStringChars (rest.length + 1) rest with
        | .error e => .error e
        | .ok (chars, r) => .ok (.jstr ⟨chars⟩, r)
      else if c = '[' then
        match skipWs rest with
        | [] => .error "Expecting value"
        | d :: r2 =>
            if d = ']' then .ok (.jarr [], r2)
            else
              match parseElems fuel (d :: r2) [] with
              | .error e => .error e
              | .ok (xs, r3) => .ok (.jarr xs, r3)
      else if c = Char.ofNat 123 then
        match skipWs rest with
        | [] => .error "Expecting property name"
        | d :: r2 =>
            if d = Char.ofNat 125 then .ok (.jobj [], r2)
            else
              match parseMembers fuel (d :: r2) [] with
              | .error e => .error e
              | .ok (ms, r3) => .ok (.jobj ms, r3)
      else if c = Char.ofNat 45 then parseNumTail true rest
      else if isDigitC c then parseNumTail false (c :: rest)
      else .error "Expecting value"

def parseElems : Nat → List Char → List JVal → Except String (List JVal × List Char)
  | 0, _, _ => .error "Recursion limit"
  | fuel + 1, cs, acc =>
    match parseValue fuel (skipWs cs) with
    | .error e => .error e
    | .ok (v, r) =>
      match skipWs r with
      | [] => .error "Expecting comma"
      | d :: r2 =>
          if d = ',' then parseElems fuel r2 (acc ++ [v])
          else if d = ']' then .ok (acc ++ [v], r2)
          else .error "Expecting comma"

def parseMembers : Nat → List Char → List (String × JVal) →
    Except String (List (String × JVal) × List Char)
  | 0, _, _ => .error "Recursion limit"
  | fuel + 1, cs, acc =>
    match cs with
    | [] => .error "Expecting property name"
    | c :: rest =>
      if c = quoteC then
        match parseStringChars (rest.length + 1) rest with
        | .error e => .error e
        | .ok (kchars, r) =>
          match skipWs r with
          | [] => .error "Expecting colon"
          | d :: r2 =>
            if d = ':' then
              match parseValue fuel (skipWs r2) with
              | .error e => .error e
              | .ok (v, r3) =>
                match skipWs r3 with
                | [] => .error "Expecting comma"
                | d2 :: r4 =>
                    if d2 = ',' then parseMembers fuel (skipWs r4) (acc ++ [(⟨kchars⟩, v)])
                    else if d2 = Char.ofNat 125 then .ok (acc ++ [(⟨kchars⟩, v)], r4)
                    else .error "Expecting comma"
            else .error "Expecting colon"
      else .error "Expecting property name"

end

/-- `json.loads`: parse one value, allowing surrounding whitespace and
rejecting trailing data. -/
def jsonLoads (s : String) : Except String JVal :=
  match parseValue (s.data.length + 1) (skipWs s.data) with
  | .error e => .error e
  | .ok (v, rest) => if (skipWs rest).isEmpty then .ok v else .error "Extra data"

/-! ## The Fernet envelope (`encrypt_data` / `decrypt_data`, lines 32–38)

Modelled from the spec: the `cryptography` library's `Fernet` class is not
part of the repository's files. The spec's contract for the envelope is
authenticated symmetric encryption — `decrypt(encrypt(p, k), k) == p` with a
fresh nonce allowed per call, and a single distinguishable authentication
error whenever the integrity tag does not verify under the supplied key
(wrong key or tampering). The token is modelled symbolically as the nonce,
the key the token authenticates under, and the protected plaintext; the
UTF-8 `encode`/`decode` of the serialized text is an inverse pair and is
collapsed. Key-format validation (`ValueError` for malformed keys) is not
modelled: the claims quantify over validly generated keys only. -/

/-- A Python exception category surfaced by the envelope. -/
inductive PyErr where
  | invalidToken
  | jsonError (msg : String)
deriving Repr, DecidableEq

/-- A Fernet token: nonce, the key it authenticates under, the protected
serialized payload. -/
structure FernetToken where
  nonce : Nat
  keyTag : String
  body : String
deriving Repr, DecidableEq

/-- `encrypt_data(data, key)`: `Fernet(key).encrypt(json.dumps(data).encode())`;
`nonce` is the fresh randomness Fernet draws per call. -/
def encrypt_data (data : JVal) (key : String) (nonce : Nat) : FernetToken :=
  { nonce, keyTag := key, body := jsonDumps data }

/-- `decrypt_data(encrypted_data, key)`:
`json.loads(Fernet(key).decrypt(encrypted_data).decode())` — Fernet first
verifies the token's integrity tag under `key`, raising `InvalidToken` on
mismatch, and only then does the plaintext reach `json.loads`. -/
def decrypt_data (tok : FernetToken) (key : String) : Except PyErr JVal :=
  if tok.keyTag = key then
    match jsonLoads tok.body with
    | .error e => .error (.jsonError e)
    | .ok v => .ok v
  else .error .invalidToken

/-! ## Canonical payloads and parser fuel weights -/

/-- Are the keys of an object pairwise distinct (a Python `dict` cannot hold
duplicates)? -/
def keysNodup : List String → Bool
  | [] => true
  | k :: t => !(t.contains k) && keysNodup t

/-- Is the decomposition `±d₁.d₂…dₙ × 10^e` a `repr` decomposition of a
finite float: every digit in range, no leading or trailing zero among the
significant digits, and zero carried exactly as `[0]` with exponent 0?
Exactly one canonical decomposition exists per finite double. -/
def floatCanon (ds : List Nat) (e : Int) : Bool :=
  ds.all (fun d => decide (d < 10)) &&
  !ds.isEmpty &&
  (if ds.tail.isEmpty then (if ds.headD 0 = 0 then decide (e = 0) else true)
   else decide (ds.headD 0 ≠ 0) && decide (ds.getLastD 0 ≠ 0))

/-! `canonicalV`: a payload is canonically serializable when every object in
it has pairwise distinct keys (the shape `DataFrame`-derived dicts and the
insight dict take) and every float carries the canonical `repr`
decomposition of its double. -/

mutual

def canonicalV : JVal → Bool
  | .jnull => true
  | .jbool _ => true
  | .jnum _ => true
  | .jfloat _ ds e => floatCanon ds e
  | .jstr _ => true
  | .jarr xs => canonicalL xs
  | .jobj ms => keysNodup (ms.map Prod.fst) && canonicalM ms

def canonicalL : List JVal → Bool
  | [] => true
  | x :: t => canonicalV x && canonicalL t

def canonicalM : List (String × JVal) → Bool
  | [] => true
  | m :: t => canonicalV m.2 && canonicalM t

end

/-! Fuel weights: `jweightV v` bounds the parser fuel consumed re-reading a
dumped `v` (one unit per value plus one per list element). -/

mutual

def jweightV : JVal → Nat
  | .jnull => 1
  | .jbool _ => 1
  | .jnum _ => 1
  | .jfloat _ _ _ => 1
  | .jstr _ => 1
  | .jarr xs => 1 + eweightL xs
  | .jobj ms => 1 + mweightL ms

def eweightL : List JVal → Nat
  | [] => 0
  | x :: t => 1 + jweightV x + eweightL t

def mweightL : List (String × JVal) → Nat
  | [] => 0
  | m :: t => 1 + jweightV m.2 + mweightL t

end

/-! ## Reachable ledger states -/

/-- The states a `Blockchain` object can be in after construction and `n`
successful `add_block` calls, for arbitrary payloads, actors and clock
readings. -/
inductive ReachableN : Nat → Blockchain → Prop where
  | init (t : String) : ReachableN 0 (Blockchain.init t)
  | step {n : Nat} {bc bc2 : Blockchain} {blk : Block} {data : PyVal}
      {user role tBlock tLog : String} :
      ReachableN n bc →
      bc.add_block data user role tBlock tLog = .ok (bc2, blk) →
      ReachableN (n + 1) bc2

/-! ## Concrete demonstration states used by witnesses and counterexamples -/

/-- The genesis block of a ledger whose construction-time clock read `100.0`. -/
def demoGenesis : Block := create_genesis_block "100.0"

/-- A freshly constructed ledger. -/
def demoBC0 : Blockchain := Blockchain.init "100.0"

/-- The block a first `add_block("A", "alice", "writer")` call builds when
the clock reads `101.0`. -/
def demoBlock1 : Block := Block.init 1 (.str "A") demoGenesis.hash "101.0" "writer" "alice"

/-- The ledger after that one `add_block` call (log clock `102.0`). -/
def demoBC1 : Blockchain :=
  { chain := [demoGenesis, demoBlock1],
    access_logs := [{ user := "alice", role := "writer", action := "store_data",
                      timestamp := "102.0" }] }

/-- `demoGenesis` with its `data` field mutated and its stored `hash` left
as it was. -/
def demoTamperedGenesis : Block := { demoGenesis with data := .str "Tampered" }

/-- `demoBC1` with the genesis mutation spliced into position 0. -/
def demoTamperedBC : Blockchain := { demoBC1 with chain := [demoTamperedGenesis, demoBlock1] }

/-- A self-consistent replacement block for position 1 whose
`previous_hash` does not match the genesis hash. -/
def demoSplice : Block := Block.init 1 (.str "A") "deadbeef" "101.0" "writer" "alice"

/-- `demoBC1` with the splice at position 1. -/
def demoSpliceBC : Blockchain := { demoBC1 with chain := [demoGenesis, demoSplice] }

/-- The block a first `add_block` call with a bytes (ciphertext) payload
builds. -/
def demoCipherBlock : Block :=
  Block.init 1 (.bytes [103, 65, 66, 67]) demoGenesis.hash "101.0" "system" "node_operator"

/-- The ledger holding that bytes-payload block. -/
def demoBytesBC : Blockchain :=
  { chain := [demoGenesis, demoCipherBlock],
    access_logs := [{ user := "node_operator", role := "system", action := "store_data",
                      timestamp := "102.0" }] }

/-! ## Block construction lemmas -/

/-- A constructed block's stored hash is the digest of its own fields:
`calculate_hash` reads every field except `hash`, so recomputing it on the
freshly built block returns exactly what the constructor stored. -/
theorem Block.init_selfcons (index : Nat) (data : PyVal)
    (previous_hash timestamp role user : String) :
    (Block.init index data previous_hash timestamp role user).hash =
      (Block.init index data previous_hash timestamp role user).calculate_hash := rfl

theorem Block.init_index (index : Nat) (data : PyVal)
    (previous_hash timestamp role user : String) :
    (Block.init index data previous_hash timestamp role user).index = index := rfl

theorem Block.init_previous_hash (index : Nat) (data : PyVal)
    (previous_hash timestamp role user : String) :
    (Block.init index data previous_hash timestamp role user).previous_hash =
      previous_hash := rfl

/-! ## Validator lemmas -/

/-- A chain tail validates when every block in it is self-consistent and each
link matches the stored hash of its predecessor. -/
theorem validFrom_of_checks (l : List Block) :
    ∀ prev : Block,
      (∀ b ∈ l, b.hash = b.calculate_hash) →
      List.Chain' (fun a b => b.previous_hash = a.hash) (prev :: l) →
      validFrom prev l = true := by
  induction l with
  | nil => intro prev _ _; rfl
  | cons cur rest ih =>
      intro prev hsc hch
      rcases List.chain'_cons.mp hch with ⟨hlink, hch'⟩
      have hcur : cur.hash = cur.calculate_hash := hsc cur (by simp)
      have hrest : ∀ b ∈ rest, b.hash = b.calculate_hash := fun b hb => hsc b (by simp [hb])
      simp only [validFrom, hcur, hlink, bne_self_eq_false, if_false]
      exact ih cur hrest hch'

/-- A tail whose first block fails one of the two per-block checks makes the
walk return `false`. -/
theorem validFrom_cons_false (p b : Block) (l : List Block)
    (hfail : (b.hash != b.calculate_hash || b.previous_hash != p.hash) = true) :
    validFrom p (b :: l) = false := by
  rcases Bool.or_eq_true_iff.mp hfail with h | h
  · simp only [validFrom, h, if_true]
  · simp only [validFrom, h]
    split <;> rfl

/-- A failing adjacent pair anywhere in the tail makes the walk return
`false`, whatever happens at the earlier links. -/
theorem validFrom_split_false (l1 : List Block) (p b : Block) (l2 : List Block)
    (hfail : (b.hash != b.calculate_hash || b.previous_hash != p.hash) = true) :
    ∀ prev : Block, validFrom prev (l1 ++ p :: b :: l2) = false := by
  induction l1 with
  | nil =>
      intro prev
      simp only [List.nil_append, validFrom]
      split
      · rfl
      · split
        · rfl
        · exact validFrom_cons_false p b l2 hfail
  | cons a t ih =>
      intro prev
      simp only [List.cons_append, validFrom]
      split
      · rfl
      · split
        · rfl
        · exact ih a

/-- `is_chain_valid` is `false` on any chain containing an adjacent pair
`p, b` whose second block fails a check against the first. -/
theorem is_chain_valid_false_of_pair (bc : Blockchain) (pre : List Block)
    (p b : Block) (post : List Block)
    (hchain : bc.chain = pre ++ p :: b :: post)
    (hfail : (b.hash != b.calculate_hash || b.previous_hash != p.hash) = true) :
    bc.is_chain_valid = false := by
  unfold Blockchain.is_chain_valid
  rw [hchain]
  cases pre with
  | nil => exact validFrom_cons_false p b post hfail
  | cons g t =>
      simp only [List.cons_append]
      exact validFrom_split_false t p b post hfail g

/-- The two duplicated validator walks agree on every tail. -/
theorem validFrom_eq_modified (l : List Block) :
    ∀ prev : Block, validFrom prev l = validFromModified prev l := by
  induction l with
  | nil => intro _; rfl
  | cons cur rest ih =>
      intro prev
      simp only [validFrom, validFromModified]
      cases h1 : (cur.hash != cur.calculate_hash) <;>
        cases h2 : (cur.previous_hash != prev.hash) <;>
          simp [h1, h2, ih cur]

/-! ## Reachability invariants -/

/-- The master invariant of reachable ledger states: chain length, indices in
position, linkage as a chain relation, self-consistency of every block, and
the access-log shape. -/
theorem reachable_spec {n : Nat} {bc : Blockchain} (h : ReachableN n bc) :
    bc.chain.length = n + 1 ∧
    (∀ i : Fin bc.chain.length, (bc.chain.get i).index = i.val) ∧
    List.Chain' (fun a b => b.previous_hash = a.hash) bc.chain ∧
    (∀ b ∈ bc.chain, b.hash = b.calculate_hash) ∧
    bc.access_logs.length = n ∧
    (∀ e ∈ bc.access_logs, e.action = "store_data") := by
  induction h with
  | init t =>
      refine ⟨rfl, ?_, ?_, ?_, rfl, ?_⟩
      · intro i
        have hl : (Blockchain.init t).chain.length = 1 := rfl
        have hi := i.isLt
        have : i.val = 0 := by omega
        simp [Blockchain.init, this, create_genesis_block, Block.init]
      · exact List.chain'_singleton _
      · intro b hb
        simp only [Blockchain.init, List.mem_singleton] at hb
        subst hb
        exact Block.init_selfcons _ _ _ _ _ _
      · intro e he
        simp [Blockchain.init] at he
  | step hreach hstep ih =>
      rename_i m bc' bc2 blk data user role tBlock tLog
      obtain ⟨hlen, hidx, hchain, hsc, hloglen, hlogact⟩ := ih
      unfold Blockchain.add_block at hstep
      cases hlast : bc'.chain.getLast? with
      | none => rw [hlast] at hstep; exact absurd hstep (by simp)
      | some prev =>
          rw [hlast] at hstep
          simp only [Except.ok.injEq, Prod.mk.injEq] at hstep
          obtain ⟨hbc2, hblk⟩ := hstep
          subst hbc2
          subst hblk
          have hprev_mem : prev ∈ bc'.chain :=
            List.mem_of_mem_getLast? (by rw [hlast]; rfl)
          refine ⟨by simp [hlen], ?_, ?_, ?_, by simp [log_access, hloglen], ?_⟩
          · intro i
            rcases Nat.lt_or_ge i.val bc'.chain.length with hlt | hge
            · have : (bc'.chain ++ [Block.init bc'.chain.length data prev.hash tBlock role user]).get i
                  = bc'.chain.get ⟨i.val, hlt⟩ := by
                simpa using List.getElem_append_left hlt
              rw [this]
              exact hidx ⟨i.val, hlt⟩
            · have hilen : i.val < bc'.chain.length + 1 := by
                have := i.isLt
                simpa using this
              have hieq : i.val = bc'.chain.length := by omega
              have : (bc'.chain ++ [Block.init bc'.chain.length data prev.hash tBlock role user]).get i
                  = Block.init bc'.chain.length data prev.hash tBlock role user := by
                have := List.getElem_concat_length bc'.chain
                  (Block.init bc'.chain.length data prev.hash tBlock role user) i.val hieq
                  (by simp; omega)
                simpa using this
              rw [this, Block.init_index, hieq]
          · rw [List.chain'_append]
            refine ⟨hchain, List.chain'_singleton _, ?_⟩
            intro x hx y hy
            rw [hlast] at hx
            simp only [Option.mem_def, Option.some.injEq] at hx
            simp only [List.head?_cons, Option.mem_def, Option.some.injEq] at hy
            subst hx
            subst hy
            exact Block.init_previous_hash _ _ _ _ _ _
          · intro b hb
            rcases List.mem_append.mp hb with hmem | hmem
            · exact hsc b hmem
            · simp only [List.mem_singleton] at hmem
              subst hmem
              exact Block.init_selfcons _ _ _ _ _ _
          · intro e he
            simp only [log_access, List.mem_append, List.mem_singleton] at he
            rcases he with hmem | hmem
            · exact hlogact e hmem
            · subst hmem; rfl

/-! ## Demonstration-state lemmas -/

/-- The first `add_block` call on a fresh ledger produces `demoBC1`. -/
theorem demo_step :
    demoBC0.add_block (.str "A") "alice" "writer" "101.0" "102.0" =
      .ok (demoBC1, demoBlock1) := rfl

/-- `demoBC1` is reachable in one append. -/
theorem demo_reach : ReachableN 1 demoBC1 :=
  ReachableN.step (ReachableN.init "100.0") demo_step

/-- The first `add_block` call with a bytes payload produces `demoBytesBC`. -/
theorem demo_bytes_step :
    demoBC0.add_block (.bytes [103, 65, 66, 67]) "node_operator" "system" "101.0" "102.0" =
      .ok (demoBytesBC, demoCipherBlock) := rfl

/-- `demoBytesBC` is reachable in one append. -/
theorem demo_bytes_reach : ReachableN 1 demoBytesBC :=
  ReachableN.step (ReachableN.init "100.0") demo_bytes_step

/-! ## Hex-digest character lemmas (for C9) -/

/-- Every byte `wordBytes` emits is below 256. -/
theorem wordBytes_lt (w : Nat) : ∀ b ∈ wordBytes w, b < 256 := by
  intro b hb
  simp only [wordBytes, List.mem_cons, List.not_mem_nil, or_false] at hb
  rcases hb with h | h | h | h <;> subst h <;> exact Nat.mod_lt _ (by omega)

/-- Every byte of a SHA-256 digest is below 256. -/
theorem sha256Bytes_lt (m : List Nat) : ∀ b ∈ sha256Bytes m, b < 256 := by
  intro b hb
  unfold sha256Bytes at hb
  simp only [List.mem_append] at hb
  rcases hb with ((((((h | h) | h) | h) | h) | h) | h) | h <;> exact wordBytes_lt _ b h

/-- A hex digit character is never the letter `r`. -/
theorem hexChar_ne_r {m : Nat} (hm : m < 16) : hexChar m ≠ 'r' := by
  interval_cases m <;> decide

/-- No character of a hex rendering of genuine bytes is the letter `r`. -/
theorem bytesToHex_no_r {bs : List Nat} (hlt : ∀ b ∈ bs, b < 256) :
    ∀ c ∈ (bytesToHex bs).data, c ≠ 'r' := by
  intro c hc
  have hmem : c ∈ bs.flatMap byteHexChars := hc
  rw [List.mem_flatMap] at hmem
  obtain ⟨b, hb, hcb⟩ := hmem
  have hblt := hlt b hb
  simp only [byteHexChars, List.mem_cons, List.not_mem_nil, or_false] at hcb
  rcases hcb with h | h <;> subst h
  · exact hexChar_ne_r (by omega)
  · exact hexChar_ne_r (Nat.mod_lt _ (by omega))

/-- A successful substring test puts every character of the needle into the
haystack. -/
theorem containsSub_subset : ∀ (hay needle : List Char),
    containsSub needle hay = true → ∀ a ∈ needle, a ∈ hay := by
  intro hay
  induction hay with
  | nil =>
      intro needle h a ha
      simp only [containsSub, List.isEmpty_iff] at h
      subst h
      exact absurd ha (List.not_mem_nil a)
  | cons c t ih =>
      intro needle h a ha
      rw [containsSub, Bool.or_eq_true] at h
      rcases h with hp | hs
      · exact (List.isPrefixOf_iff_prefix.mp hp).sublist.subset ha
      · exact List.mem_cons_of_mem c (ih needle hs a ha)

/-- An anonymized wallet address — ten characters of a lowercase hex
digest — never contains `"addr"`. -/
theorem containsAddr_anonymized (x : String) :
    containsAddr (strTake (sha256hex x) 10) = false := by
  cases h : containsAddr (strTake (sha256hex x) 10) with
  | false => rfl
  | true =>
      exfalso
      have hr : 'r' ∈ (strTake (sha256hex x) 10).data :=
        containsSub_subset _ _ h 'r' (by decide)
      have hr2 : 'r' ∈ (sha256hex x).data := by
        have hsub : (strTake (sha256hex x) 10).data = (sha256hex x).data.take 10 := rfl
        rw [hsub] at hr
        exact (List.take_sublist 10 _).subset hr
      exact bytesToHex_no_r (sha256Bytes_lt _) 'r' hr2 rfl

/-! ## Claim C4 — genesis invariant -/

/-- Claim C4: a freshly constructed `Blockchain` has exactly the genesis
block — index 0, sentinel previous hash `"0"`, payload `"Genesis Block"`, the
fixed system actor (`user = "admin"`, `role = "system"`) — and an empty
access log. -/
theorem c4_genesis_state (t : String) :
    (Blockchain.init t).chain = [create_genesis_block t] ∧
    (create_genesis_block t).index = 0 ∧
    (create_genesis_block t).previous_hash = "0" ∧
    (create_genesis_block t).data = .str "Genesis Block" ∧
    (create_genesis_block t).user = "admin" ∧
    (create_genesis_block t).role = "system" ∧
    (Blockchain.init t).access_logs = [] :=
  ⟨rfl, rfl, rfl, rfl, rfl, rfl, rfl⟩

/-! ## Claim C3 — reachable-state invariant -/

/-- Claim C3: after a construction and `N` successful `add_block` calls the
chain has length `N + 1` with `chain[i].index = i` everywhere,
`chain[i].previous_hash = chain[i-1].hash` for every `i ≥ 1`,
`is_chain_valid()` is true, and the access log holds exactly `N` entries,
each with action `"store_data"` (genesis creation is not logged). -/
theorem c3_chain_growth {n : Nat} {bc : Blockchain} (h : ReachableN n bc) :
    bc.chain.length = n + 1 ∧
    (∀ i : Fin bc.chain.length, (bc.chain.get i).index = i.val) ∧
    (∀ i : Nat, ∀ hi : i + 1 < bc.chain.length,
        (bc.chain.get ⟨i + 1, hi⟩).previous_hash =
          (bc.chain.get ⟨i, by omega⟩).hash) ∧
    bc.is_chain_valid = true ∧
    bc.access_logs.length = n ∧
    (∀ e ∈ bc.access_logs, e.action = "store_data") := by
  obtain ⟨hlen, hidx, hchain, hsc, hloglen, hlogact⟩ := reachable_spec h
  refine ⟨hlen, hidx, ?_, ?_, hloglen, hlogact⟩
  · intro i hi
    have := List.chain'_iff_get.mp hchain i (by omega)
    exact this
  · unfold Blockchain.is_chain_valid
    cases hc : bc.chain with
    | nil => rfl
    | cons g rest =>
        apply validFrom_of_checks
        · intro b hb
          exact hsc b (by rw [hc]; simp [hb])
        · rw [← hc]; exact hchain

/-- Witness for C3 at the concrete one-append ledger `demoBC1`. -/
theorem c3_witness :
    demoBC1.chain.length = 2 ∧ demoBC1.is_chain_valid = true ∧
    demoBC1.access_logs.length = 1 := by
  obtain ⟨h1, _, _, h4, h5, _⟩ := c3_chain_growth demo_reach
  exact ⟨h1, h4, h5⟩

/-! ## Claim C10 — the two validators agree -/

/-- Claim C10: the validator of `quantum_blockchain_dashboard.py` (two
early-return checks) and the validator of
`quantum_blockchain_modified_dashboard.py` (one combined disjunction) return
the same boolean on every chain. -/
theorem c10_validators_agree (bc : Blockchain) :
    bc.is_chain_valid = is_chain_valid_modified bc := by
  unfold Blockchain.is_chain_valid is_chain_valid_modified
  cases bc.chain with
  | nil => rfl
  | cons g rest => exact validFrom_eq_modified rest g

/-! ## Claim C8 — append atomicity -/

/-- Claim C8: a failing `add_block` (the only raise point, reading
`chain[-1]`, precedes every mutation) leaves the state exactly as it was; a
successful one appends exactly one block to the chain and then exactly one
`"store_data"` entry to the access log. -/
theorem c8_append_atomicity (bc : Blockchain) (data : PyVal)
    (user role tBlock tLog : String) :
    match bc.add_block data user role tBlock tLog with
    | .error (_, bcAtRaise) => bcAtRaise = bc
    | .ok (bc2, blk) =>
        bc2.chain = bc.chain ++ [blk] ∧
        bc2.access_logs = bc.access_logs ++
          [{ user := user, role := role, action := "store_data", timestamp := tLog }] := by
  unfold Blockchain.add_block
  cases h : bc.chain.getLast? with
  | none => simp
  | some prev => simp [log_access]

/-! ## Claim C1 — tamper detection (corrected) -/

/-- Claim C1 as amended: on a reachable chain, for any position `k ≥ 1`
(split `chain = pre ++ p :: b :: post` with `p` at `k - 1`), replacing `b`
with a block `bT` is caught by `is_chain_valid` whenever either (a) `bT`
keeps the stored hash but its recomputed digest differs from the original's
(single-field mutations whose digests differ), or (b) `bT` is self-consistent
but its `previous_hash` is not `p`'s stored hash (splicing). Genesis
(`k = 0`) is excluded: the loop starting at index 1 never rechecks it — see
the counterexample. -/
theorem c1_tamper_detection {n : Nat} {bc : Blockchain}
    (pre : List Block) (p b bT : Block) (post : List Block)
    (hreach : ReachableN n bc)
    (hsplit : bc.chain = pre ++ p :: b :: post)
    (hdet : (bT.hash = b.hash ∧ bT.calculate_hash ≠ b.calculate_hash) ∨
            (bT.hash = bT.calculate_hash ∧ bT.previous_hash ≠ p.hash)) :
    Blockchain.is_chain_valid { bc with chain := pre ++ p :: bT :: post } = false := by
  have hfail : (bT.hash != bT.calculate_hash || bT.previous_hash != p.hash) = true := by
    rcases hdet with ⟨he, hne⟩ | ⟨hsc, hne⟩
    · have hb : b.hash = b.calculate_hash :=
        (reachable_spec hreach).2.2.2.1 b (by rw [hsplit]; simp)
      have hd : bT.hash ≠ bT.calculate_hash := by
        intro hh
        exact hne (by rw [← hh, he, hb])
      have h1 : (bT.hash != bT.calculate_hash) = true := bne_iff_ne.mpr hd
      simp [h1]
    · have h2 : (bT.previous_hash != p.hash) = true := bne_iff_ne.mpr hne
      simp [h2]
  exact is_chain_valid_false_of_pair _ pre p bT post rfl hfail

/-- Counterexample to C1 as stated: mutating the genesis block's `data`
field (position `k = 0`) of a reachable two-block chain, stored hash left
unchanged, is NOT detected — `is_chain_valid()` stays `true`, because the
validation loop starts at index 1 and only reads the genesis block's stored
`hash`. -/
theorem c1_counterexample :
    ReachableN 1 demoBC1 ∧
    demoTamperedBC.chain = { demoGenesis with data := .str "Tampered" } :: [demoBlock1] ∧
    PyVal.str "Tampered" ≠ demoGenesis.data ∧
    demoTamperedGenesis.hash = demoGenesis.hash ∧
    demoTamperedBC.is_chain_valid = true := by
  refine ⟨demo_reach, rfl, by decide, rfl, ?_⟩
  show validFrom demoTamperedGenesis [demoBlock1] = true
  apply validFrom_of_checks
  · intro b hb
    simp only [List.mem_singleton] at hb
    subst hb
    exact Block.init_selfcons _ _ _ _ _ _
  · refine List.chain'_cons.mpr ⟨?_, List.chain'_singleton _⟩
    show demoBlock1.previous_hash = demoTamperedGenesis.hash
    rfl

/-- Witness for C1 (amended): the splice case at position 1 of the concrete
reachable chain, with the digest inequality discharged by evaluation. -/
theorem c1_witness : Blockchain.is_chain_valid demoSpliceBC = false :=
  c1_tamper_detection [] demoGenesis demoBlock1 demoSplice [] demo_reach rfl
    (Or.inr ⟨Block.init_selfcons _ _ _ _ _ _, by decide⟩)

/-! ## Claim C2 — hash-input ambiguity (corrected) -/

/-- Counterexample to C2 as stated: the two distinct field tuples
`(index = 1, data = "2x")` and `(index = 12, data = "x")` (other fields
equal) are encoded to the same hashed byte string by `calculate_hash`'s
f-string concatenation. -/
theorem c2_counterexample :
    ¬((1 : Nat) = 12 ∧ PyVal.str "2x" = PyVal.str "x") ∧
    utf8Encode (hashInput 1 (.str "2x") "p" "t" "u" "r") =
      utf8Encode (hashInput 12 (.str "x") "p" "t" "u" "r") :=
  ⟨by decide, by decide⟩

/-- Claim C2 as amended: the encoding `calculate_hash` feeds to the digest is
the undelimited concatenation of the fields' `str()` renderings and is
ambiguous — there exist two 6-tuples differing in `(index, data)` whose
hashed byte strings, and hence digests, coincide. -/
theorem c2_encoding_ambiguous :
    ∃ (i1 i2 : Nat) (d1 d2 : PyVal) (ph t u r : String),
      ¬(i1 = i2 ∧ d1 = d2) ∧
      utf8Encode (hashInput i1 d1 ph t u r) = utf8Encode (hashInput i2 d2 ph t u r) ∧
      sha256hex (hashInput i1 d1 ph t u r) = sha256hex (hashInput i2 d2 ph t u r) := by
  refine ⟨1, 12, .str "2x", .str "x", "p", "t", "u", "r", by decide, ?_, ?_⟩
  · decide
  · have hs : hashInput 1 (.str "2x") "p" "t" "u" "r" =
        hashInput 12 (.str "x") "p" "t" "u" "r" := by decide
    rw [hs]

/-! ## Claim C7 — summary projection raises on bytes payloads (code bug) -/

/-- Claim C7 fails on the code: `to_dict`'s `Data` expression parses as
`(self.data[:100] + "...") if isinstance(self.data, bytes) else ...`, so for
every block whose payload is `bytes` the bytes slice is concatenated with a
`str` and `TypeError` is raised; `get_all_blocks` propagates it, here
evaluated on a reachable chain holding one ciphertext-style block. -/
theorem c7_summary_raises :
    ReachableN 1 demoBytesBC ∧
    demoBytesBC.get_all_blocks = .error "TypeError: cant concat str to bytes" ∧
    (∀ b : Block, ∀ bs : List Nat, b.data = .bytes bs →
      b.to_dict = .error "TypeError: cant concat str to bytes") := by
  refine ⟨demo_bytes_reach, rfl, ?_⟩
  intro b bs hb
  unfold Block.to_dict
  rw [hb]

/-! ## Claim C9 — compliance gate -/

/-- Claim C9: `check_ethical_compliance` raises exactly when some wallet
address still contains `"addr"`, and on any output of `anonymize_data` —
10-character prefixes of lowercase hex digests, which cannot contain the
letter `r` — the error branch is unreachable and the check returns `True`. -/
theorem c9_compliance_gate :
    (∀ addrs : List String,
        (addrs.any containsAddr = true →
          check_ethical_compliance addrs = .error "Data not fully anonymized!") ∧
        (addrs.any containsAddr = false →
          check_ethical_compliance addrs = .ok true)) ∧
    (∀ wallet : List String, check_ethical_compliance (anonymize_data wallet) = .ok true) := by
  have hpart : ∀ addrs : List String,
      (addrs.any containsAddr = true →
        check_ethical_compliance addrs = .error "Data not fully anonymized!") ∧
      (addrs.any containsAddr = false →
        check_ethical_compliance addrs = .ok true) := by
    intro addrs
    constructor
    · intro h
      unfold check_ethical_compliance
      rw [if_pos h]
    · intro h
      unfold check_ethical_compliance
      rw [if_neg (by rw [h]; exact Bool.false_ne_true)]
  refine ⟨hpart, ?_⟩
  intro wallet
  refine (hpart (anonymize_data wallet)).2 ?_
  rw [List.any_eq_false]
  intro s hs
  rw [anonymize_data, List.mem_map] at hs
  obtain ⟨x, _, hx⟩ := hs
  rw [← hx]
  simp [containsAddr_anonymized x]

/-! ## Decimal digit printing and read-back (for C5) -/

theorem digitC_toNat_mod (m : Nat) : (digitC m).toNat = 48 + m % 10 := by
  have h : m % 10 < 10 := Nat.mod_lt _ (by omega)
  unfold digitC
  generalize m % 10 = r at *
  interval_cases r <;> decide

theorem digitC_toNat {m : Nat} (hm : m < 10) : (digitC m).toNat = 48 + m := by
  rw [digitC_toNat_mod, Nat.mod_eq_of_lt hm]

theorem isDigitC_digitC (m : Nat) : isDigitC (digitC m) = true := by
  have h : m % 10 < 10 := Nat.mod_lt _ (by omega)
  simp only [isDigitC, digitC_toNat_mod, Bool.and_eq_true, decide_eq_true_eq]
  omega

theorem digitC_mod (m : Nat) : digitC m = digitC (m % 10) := by
  unfold digitC
  congr 1
  omega

/-- Digits accumulate: the accumulator is appended behind the digits. -/
theorem natDigitsAux_append : ∀ (fuel n : Nat) (acc : List Char),
    natDigitsAux fuel n acc = natDigitsAux fuel n [] ++ acc := by
  intro fuel
  induction fuel with
  | zero => intro n acc; rfl
  | succ f ih =>
      intro n acc
      by_cases hn : n < 10
      · simp [natDigitsAux, hn]
      · simp only [natDigitsAux, hn, if_false]
        rw [ih (n / 10) (digitC (n % 10) :: acc), ih (n / 10) [digitC (n % 10)]]
        simp

/-- Any fuel above the value yields the same digits. -/
theorem natDigitsAux_fuel : ∀ (n f1 f2 : Nat) (acc : List Char),
    n < f1 → n < f2 → natDigitsAux f1 n acc = natDigitsAux f2 n acc := by
  intro n
  induction n using Nat.strong_induction_on with
  | _ n ih =>
      intro f1 f2 acc h1 h2
      cases f1 with
      | zero => omega
      | succ g1 =>
          cases f2 with
          | zero => omega
          | succ g2 =>
              by_cases hn : n < 10
              · simp [natDigitsAux, hn]
              · simp only [natDigitsAux, hn, if_false]
                have hdiv : n / 10 < n := Nat.div_lt_self (by omega) (by omega)
                exact ih (n / 10) hdiv g1 g2 _ (by omega) (by omega)

theorem natDigits_small {n : Nat} (hn : n < 10) : natDigits n = [digitC n] := by
  simp [natDigits, natDigitsAux, hn]

theorem natDigits_step {n : Nat} (hn : 10 ≤ n) :
    natDigits n = natDigits (n / 10) ++ [digitC (n % 10)] := by
  have hdiv : n / 10 < n := Nat.div_lt_self (by omega) (by omega)
  unfold natDigits
  rw [show natDigitsAux (n + 1) n [] = natDigitsAux n (n / 10) [digitC (n % 10)] by
        simp [natDigitsAux, Nat.not_lt.mpr hn]]
  rw [natDigitsAux_append n (n / 10) [digitC (n % 10)]]
  rw [natDigitsAux_fuel (n / 10) n (n / 10 + 1) [] (by omega) (by omega)]

/-- The leading digit: `natDigits` always starts with one digit character. -/
theorem natDigits_head : ∀ n : Nat, ∃ m tail, m < 10 ∧ natDigits n = digitC m :: tail := by
  intro n
  induction n using Nat.strong_induction_on with
  | _ n ih =>
      by_cases hn : n < 10
      · exact ⟨n, [], hn, natDigits_small hn⟩
      · obtain ⟨m, tail, hm, htl⟩ := ih (n / 10) (Nat.div_lt_self (by omega) (by omega))
        refine ⟨m, tail ++ [digitC (n % 10)], hm, ?_⟩
        rw [natDigits_step (by omega), htl]
        rfl

/-- Nonemptiness transported to `isEmpty`. -/
theorem isEmpty_false_of_ne_nil {α : Type} {l : List α} (h : l ≠ []) : l.isEmpty = false := by
  cases l with
  | nil => exact absurd rfl h
  | cons a t => rfl

theorem natDigits_ne_nil (n : Nat) : natDigits n ≠ [] := by
  obtain ⟨m, t, _, h⟩ := natDigits_head n
  rw [h]
  simp

/-- Every character `natDigits` prints is a decimal digit. -/
theorem natDigits_all : ∀ n : Nat, ∀ c ∈ natDigits n, isDigitC c = true := by
  intro n
  induction n using Nat.strong_induction_on with
  | _ n ih =>
      by_cases hn : n < 10
      · rw [natDigits_small hn]
        intro c hc
        simp only [List.mem_singleton] at hc
        subst hc
        exact isDigitC_digitC n
      · rw [natDigits_step (Nat.not_lt.mp hn)]
        intro c hc
        rcases List.mem_append.mp hc with h1 | h2
        · exact ih (n / 10) (Nat.div_lt_self (by omega) (by omega)) c h1
        · simp only [List.mem_singleton] at h2
          subst h2
          exact isDigitC_digitC _

/-- Unpacking the number-safety of a nonempty remainder. -/
theorem numSafe_cons {c : Char} {t : List Char} (h : numSafe (c :: t) = true) :
    isDigitC c = false ∧ c ≠ '.' ∧ c ≠ 'e' ∧ c ≠ 'E' := by
  simp only [numSafe, Bool.not_eq_true', Bool.or_eq_false_iff,
    decide_eq_false_iff_not] at h
  exact ⟨h.1.1.1, h.1.1.2, h.1.2, h.2⟩

theorem noDigitHead_of_numSafe : ∀ l : List Char, numSafe l = true → noDigitHead l = true
  | [], _ => rfl
  | c :: t, h => by simp [noDigitHead, (numSafe_cons h).1]

theorem fracStarts_of_numSafe : ∀ l : List Char, numSafe l = true → fracStarts l = false
  | [], _ => rfl
  | c :: t, h => by simp [fracStarts, (numSafe_cons h).2.1]

theorem expStarts_of_numSafe : ∀ l : List Char, numSafe l = true → expStarts l = false
  | [], _ => rfl
  | c :: t, h => by simp [expStarts, (numSafe_cons h).2.2.1, (numSafe_cons h).2.2.2]

/-- The digit scan consumes a run of digit characters and stops at a
non-digit head. -/
theorem takeDigitChars_append : ∀ ds rest : List Char, (∀ c ∈ ds, isDigitC c = true) →
    noDigitHead rest = true → takeDigitChars (ds ++ rest) = (ds, rest) := by
  intro ds
  induction ds with
  | nil =>
      intro rest _ hr
      cases rest with
      | nil => rfl
      | cons c t =>
          simp only [noDigitHead, Bool.not_eq_true'] at hr
          simp [takeDigitChars, hr]
  | cons c dt ih =>
      intro rest hall hr
      have hc : isDigitC c = true := hall c (List.mem_cons_self c dt)
      rw [List.cons_append]
      simp [takeDigitChars, hc, ih rest (fun x hx => hall x (List.mem_cons_of_mem c hx)) hr]

/-- Folding a digit run with one more digit at its end. -/
theorem digitsVal_concat (l : List Char) (c : Char) :
    digitsVal (l ++ [c]) = digitsVal l * 10 + (c.toNat - 48) := by
  simp [digitsVal, List.foldl_append]

/-- Reading back the printed digits of a natural recovers it. -/
theorem digitsVal_natDigits : ∀ n : Nat, digitsVal (natDigits n) = n := by
  intro n
  induction n using Nat.strong_induction_on with
  | _ n ih =>
      by_cases hn : n < 10
      · rw [natDigits_small hn]
        simp only [digitsVal, List.foldl_cons, List.foldl_nil, digitC_toNat hn]
        omega
      · rw [natDigits_step (Nat.not_lt.mp hn), digitsVal_concat,
          ih (n / 10) (Nat.div_lt_self (by omega) (by omega)),
          digitC_toNat (Nat.mod_lt _ (by omega))]
        omega

/-- `charsToDigits` distributes over append. -/
theorem charsToDigits_append (l1 l2 : List Char) :
    charsToDigits (l1 ++ l2) = charsToDigits l1 ++ charsToDigits l2 := by
  simp [charsToDigits]

/-- Reading digit characters back off in-range digits. -/
theorem charsToDigits_map_digitC : ∀ ds : List Nat, (∀ d ∈ ds, d < 10) →
    charsToDigits (ds.map digitC) = ds := by
  intro ds
  induction ds with
  | nil => intro _; rfl
  | cons d dt ih =>
      intro h
      have hd : d < 10 := h d (List.mem_cons_self d dt)
      have ht := ih (fun x hx => h x (List.mem_cons_of_mem d hx))
      simp only [charsToDigits, List.map_cons] at ht ⊢
      rw [List.cons.injEq]
      exact ⟨by rw [digitC_toNat hd]; omega, ht⟩

theorem charsToDigits_replicate0 (k : Nat) :
    charsToDigits (List.replicate k '0') = List.replicate k 0 := by
  simp [charsToDigits, List.map_replicate]

/-- Leading zero digits strip away. -/
theorem dropZeros_replicate (a : Nat) (l : List Nat) :
    dropZeros (List.replicate a 0 ++ l) = dropZeros l := by
  induction a with
  | zero => simp
  | succ k ih => simpa [List.replicate_succ, dropZeros] using ih

theorem dropZeros_cons_ne {d : Nat} (hd : d ≠ 0) (l : List Nat) :
    dropZeros (d :: l) = d :: l := by
  simp [dropZeros, hd]

/-- A list ending in a nonzero digit reverses to one starting with it. -/
theorem dropZeros_reverse_of_last (ds : List Nat) (hne : ds ≠ []) (hl : ds.getLastD 0 ≠ 0) :
    dropZeros ds.reverse = ds.reverse := by
  obtain ⟨l0, dl, rfl⟩ : ∃ l0 dl, ds = l0 ++ [dl] :=
    ⟨ds.dropLast, ds.getLast hne, (List.dropLast_append_getLast hne).symm⟩
  rw [List.getLastD_concat] at hl
  rw [List.reverse_append, List.reverse_singleton, List.singleton_append]
  exact dropZeros_cons_ne hl _

/-- Normalizing a raw digit string made of a canonical core padded by zeros
on both sides recovers the core and counts the trailing pad. -/
theorem sigDigits_shape {ds : List Nat} (a b : Nat) (hne : ds ≠ [])
    (hh : ds.headD 0 ≠ 0) (hl : ds.getLastD 0 ≠ 0) :
    sigDigits (List.replicate a 0 ++ ds ++ List.replicate b 0) = ds ∧
      trailZeros (List.replicate a 0 ++ ds ++ List.replicate b 0) = b := by
  obtain ⟨d, dt, rfl⟩ := List.exists_cons_of_ne_nil hne
  have hd : d ≠ 0 := by simpa using hh
  have h1 : dropZeros (List.replicate a 0 ++ (d :: dt) ++ List.replicate b 0) =
      (d :: dt) ++ List.replicate b 0 := by
    rw [List.append_assoc, dropZeros_replicate]
    exact dropZeros_cons_ne hd _
  have h2 : dropZeros ((d :: dt) ++ List.replicate b 0).reverse = (d :: dt).reverse := by
    rw [List.reverse_append, List.reverse_replicate, dropZeros_replicate]
    exact dropZeros_reverse_of_last _ (by simp) hl
  constructor
  · simp only [sigDigits]
    rw [h1, h2, List.reverse_reverse]
  · simp only [trailZeros]
    rw [h1, h2]
    simp

theorem sigDigits_zeros (a : Nat) : sigDigits (List.replicate a 0) = [] := by
  have h1 : dropZeros (List.replicate a 0) = [] := by
    simpa using dropZeros_replicate a []
  simp [sigDigits, h1, dropZeros]

/-- Decimal normalization of a padded canonical literal. -/
theorem floatOfDecimal_shape (neg : Bool) {ds : List Nat} (a b : Nat) (ex : Int)
    (ip fp : List Char)
    (hsplit : charsToDigits (ip ++ fp) = List.replicate a 0 ++ ds ++ List.replicate b 0)
    (hne : ds ≠ []) (hh : ds.headD 0 ≠ 0) (hl : ds.getLastD 0 ≠ 0) :
    floatOfDecimal neg ip fp ex =
      .jfloat neg ds ((ds.length : Int) - 1 + ex - (fp.length : Int) + (b : Int)) := by
  obtain ⟨h1, h2⟩ := sigDigits_shape a b hne hh hl
  unfold floatOfDecimal
  rw [hsplit, h1, h2, if_neg hne]

/-- Decimal normalization of an all-zero literal. -/
theorem floatOfDecimal_zeros (neg : Bool) (a : Nat) (ex : Int) (ip fp : List Char)
    (hsplit : charsToDigits (ip ++ fp) = List.replicate a 0) :
    floatOfDecimal neg ip fp ex = .jfloat neg [0] 0 := by
  unfold floatOfDecimal
  rw [hsplit, sigDigits_zeros, if_pos rfl]

/-- What a canonical float decomposition guarantees. -/
theorem floatCanon_elim {ds : List Nat} {e : Int} (h : floatCanon ds e = true) :
    (∀ d ∈ ds, d < 10) ∧
      ((ds = [0] ∧ e = 0) ∨ (ds ≠ [] ∧ ds.headD 0 ≠ 0 ∧ ds.getLastD 0 ≠ 0)) := by
  unfold floatCanon at h
  rw [Bool.and_eq_true, Bool.and_eq_true] at h
  obtain ⟨⟨hall, hne⟩, hshape⟩ := h
  have hall' : ∀ d ∈ ds, d < 10 := by
    intro d hd
    simpa using List.all_eq_true.mp hall d hd
  refine ⟨hall', ?_⟩
  cases ds with
  | nil => simp at hne
  | cons d rest =>
      cases rest with
      | nil =>
          by_cases hd0 : d = 0
          · subst hd0
            simp at hshape
            exact Or.inl ⟨rfl, hshape⟩
          · exact Or.inr ⟨by simp, by simpa using hd0, by simpa using hd0⟩
      | cons d2 t2 =>
          simp at hshape
          exact Or.inr ⟨by simp, by simpa using hshape.1, by simpa using hshape.2⟩

/-- Reading an integer literal back against a number-safe remainder. -/
theorem parseNumTail_int (neg : Bool) (n : Nat) (rest : List Char)
    (hsafe : numSafe rest = true) :
    parseNumTail neg (natDigits n ++ rest) = .ok (.jnum (intSign neg n), rest) := by
  have ht := takeDigitChars_append (natDigits n) rest (natDigits_all n)
    (noDigitHead_of_numSafe rest hsafe)
  have h0 : (natDigits n).isEmpty = false := isEmpty_false_of_ne_nil (by
    obtain ⟨m, tl, _, hnt⟩ := natDigits_head n
    rw [hnt]
    simp)
  unfold parseNumTail
  rw [ht]
  simp [h0, fracStarts_of_numSafe rest hsafe, expStarts_of_numSafe rest hsafe,
    digitsVal_natDigits]

theorem digitC_zero : digitC 0 = '0' := by decide

theorem intSign_true (n : Nat) : intSign true n = -(n : Int) := rfl

theorem intSign_false (n : Nat) : intSign false n = (n : Int) := rfl

theorem fracStarts_dot (l : List Char) : fracStarts ('.' :: l) = true := rfl

theorem fracStarts_e (l : List Char) : fracStarts ('e' :: l) = false := rfl

theorem expStarts_e (l : List Char) : expStarts ('e' :: l) = true := rfl

theorem noDigitHead_dot (l : List Char) : noDigitHead ('.' :: l) = true := rfl

theorem noDigitHead_e (l : List Char) : noDigitHead ('e' :: l) = true := rfl

theorem expDigits_all (a : Nat) : ∀ c ∈ expDigits a, isDigitC c = true := by
  unfold expDigits
  by_cases ha : a < 10
  · rw [if_pos ha]
    intro c hcm
    rcases List.mem_cons.mp hcm with h1 | h1
    · subst h1
      rfl
    · simp only [List.mem_singleton] at h1
      subst h1
      exact isDigitC_digitC _
  · rw [if_neg ha]
    exact natDigits_all _

theorem expDigits_ne (a : Nat) : expDigits a ≠ [] := by
  unfold expDigits
  by_cases ha : a < 10
  · simp [ha]
  · rw [if_neg ha]
    exact natDigits_ne_nil _

theorem expDigits_val (a : Nat) : digitsVal (expDigits a) = a := by
  unfold expDigits
  by_cases ha : a < 10
  · rw [if_pos ha]
    simp only [digitsVal, List.foldl_cons, List.foldl_nil, digitC_toNat ha,
      show ('0' : Char).toNat = 48 from rfl]
    omega
  · rw [if_neg ha]
    exact digitsVal_natDigits _

/-- Reading a printed exponent field back decimal-normalizes with the
printed exponent. -/
theorem parseExpTail_expChars (neg : Bool) (ip fp : List Char) (e : Int) (rest : List Char)
    (hnd : noDigitHead rest = true) :
    parseExpTail neg ip fp (expChars e ++ rest) = .ok (floatOfDecimal neg ip fp e, rest) := by
  have ht := takeDigitChars_append (expDigits e.natAbs) rest (expDigits_all _) hnd
  have h0 : (expDigits e.natAbs).isEmpty = false := isEmpty_false_of_ne_nil (expDigits_ne _)
  unfold expChars
  by_cases hneg : e < 0
  · rw [if_pos hneg, List.cons_append]
    unfold parseExpTail
    simp only []
    rw [if_pos trivial]
    unfold parseExpDigits
    rw [ht]
    have hsgn : intSign true (digitsVal (expDigits e.natAbs)) = e := by
      rw [expDigits_val, intSign_true]
      omega
    simp [h0, hsgn]
  · rw [if_neg hneg, List.cons_append]
    unfold parseExpTail
    simp only []
    rw [if_pos trivial]
    unfold parseExpDigits
    rw [ht]
    have hsgn : intSign false (digitsVal (expDigits e.natAbs)) = e := by
      rw [expDigits_val, intSign_false]
      omega
    simp [h0, hsgn]

/-- A printed float magnitude always starts with a digit character. -/
theorem floatAbsChars_head (ds : List Nat) (e : Int) :
    ∃ m l, m < 10 ∧ floatAbsChars ds e = digitC m :: l := by
  unfold floatAbsChars
  by_cases h1 : e < -4 ∨ 16 ≤ e
  · rw [if_pos h1]
    refine ⟨ds.headD 0 % 10,
      (if ds.length ≤ 1 then [] else '.' :: (ds.tail.map digitC)) ++ 'e' :: expChars e,
      Nat.mod_lt _ (by omega), ?_⟩
    rw [← digitC_mod]
  · rw [if_neg h1]
    by_cases h2 : (0 : Int) ≤ e
    · rw [if_pos h2]
      by_cases h3 : ds.length ≤ e.toNat + 1
      · rw [if_pos h3]
        cases ds with
        | nil =>
            refine ⟨0, List.replicate e.toNat '0' ++ ['.', '0'], by omega, ?_⟩
            rw [digitC_zero]
            simp [List.replicate_succ]
        | cons d dt =>
            refine ⟨d % 10,
              (dt.map digitC ++ List.replicate (e.toNat + 1 - (d :: dt).length) '0') ++
                ['.', '0'],
              Nat.mod_lt _ (by omega), ?_⟩
            rw [← digitC_mod]
            simp [List.append_assoc]
      · rw [if_neg h3]
        cases ds with
        | nil => exact absurd h3 (by simp)
        | cons d dt =>
            refine ⟨d % 10,
              (dt.map digitC).take e.toNat ++ '.' :: ((d :: dt).map digitC).drop (e.toNat + 1),
              Nat.mod_lt _ (by omega), ?_⟩
            rw [← digitC_mod]
            have hk : ((d :: dt).map digitC).take (e.toNat + 1) =
                digitC d :: ((dt.map digitC).take e.toNat) := by
              simp [List.take_succ_cons]
            rw [hk]
            simp
    · rw [if_neg h2]
      exact ⟨0, '.' :: (List.replicate (e.natAbs - 1) '0' ++ ds.map digitC), by omega,
        by rw [digitC_zero]⟩

/-- Reading a printed float back against a number-safe remainder recovers
its decomposition exactly. -/
theorem parseNumTail_float (neg : Bool) (ds : List Nat) (e : Int) (rest : List Char)
    (hc : floatCanon ds e = true) (hsafe : numSafe rest = true) :
    parseNumTail neg (floatAbsChars ds e ++ rest) = .ok (.jfloat neg ds e, rest) := by
  obtain ⟨hall, hcase⟩ := floatCanon_elim hc
  have hnd := noDigitHead_of_numSafe rest hsafe
  have hfs := fracStarts_of_numSafe rest hsafe
  have hes := expStarts_of_numSafe rest hsafe
  rcases hcase with ⟨hds, he⟩ | ⟨hne, hh, hl⟩
  · -- the zero float prints 0.0
    subst hds
    subst he
    have hfa : floatAbsChars [0] 0 = ['0', '.', '0'] := by decide
    have ht1 : takeDigitChars (['0', '.', '0'] ++ rest) = (['0'], '.' :: '0' :: rest) :=
      takeDigitChars_append ['0'] ('.' :: '0' :: rest)
        (by intro c hcm; simp only [List.mem_singleton] at hcm; subst hcm; rfl) rfl
    have ht2 : takeDigitChars ('0' :: rest) = (['0'], rest) :=
      takeDigitChars_append ['0'] rest
        (by intro c hcm; simp only [List.mem_singleton] at hcm; subst hcm; rfl) hnd
    rw [hfa]
    unfold parseNumTail parseFracTail
    rw [ht1]
    simp [fracStarts_dot, ht2, hes,
      floatOfDecimal_zeros neg 2 0 ['0'] ['0'] (by decide)]
  · obtain ⟨d, dt, rfl⟩ := List.exists_cons_of_ne_nil hne
    have hd0 : d ≠ 0 := by simpa using hh
    have hd10 : d < 10 := hall d (List.mem_cons_self d dt)
    by_cases hsci : e < -4 ∨ 16 ≤ e
    · -- scientific notation
      cases dt with
      | nil =>
          have hface : floatAbsChars [d] e ++ rest = digitC d :: ('e' :: (expChars e ++ rest)) := by
            unfold floatAbsChars
            rw [if_pos hsci]
            simp
          rw [hface]
          have ht1 : takeDigitChars (digitC d :: ('e' :: (expChars e ++ rest))) =
              ([digitC d], 'e' :: (expChars e ++ rest)) :=
            takeDigitChars_append [digitC d] _
              (by intro c hcm; simp only [List.mem_singleton] at hcm; subst hcm;
                  exact isDigitC_digitC d) rfl
          unfold parseNumTail
          rw [ht1]
          simp only [List.isEmpty_cons, Bool.false_eq_true, if_false, ite_false,
            fracStarts_e, expStarts_e, if_true, ite_true, List.tail_cons]
          rw [parseExpTail_expChars neg [digitC d] [] e rest hnd]
          have hsplit : charsToDigits ([digitC d] ++ ([] : List Char)) =
              List.replicate 0 0 ++ [d] ++ List.replicate 0 0 := by
            simp only [List.append_nil, List.replicate_zero, List.nil_append]
            rw [show ([digitC d] : List Char) = [d].map digitC from rfl,
              charsToDigits_map_digitC _ hall]
          rw [floatOfDecimal_shape neg 0 0 e [digitC d] [] hsplit hne hh hl]
          refine congrArg (fun E : Int =>
            (Except.ok (JVal.jfloat neg [d] E, rest) : Except String (JVal × List Char))) ?_
          simp
      | cons d2 dt2 =>
          have hface : floatAbsChars (d :: d2 :: dt2) e ++ rest =
              digitC d :: ('.' :: ((d2 :: dt2).map digitC ++ ('e' :: (expChars e ++ rest)))) := by
            unfold floatAbsChars
            rw [if_pos hsci]
            simp [List.append_assoc]
          rw [hface]
          have ht1 : takeDigitChars
              (digitC d :: ('.' :: ((d2 :: dt2).map digitC ++ ('e' :: (expChars e ++ rest))))) =
              ([digitC d], '.' :: ((d2 :: dt2).map digitC ++ ('e' :: (expChars e ++ rest)))) :=
            takeDigitChars_append [digitC d] _
              (by intro c hcm; simp only [List.mem_singleton] at hcm; subst hcm;
                  exact isDigitC_digitC d) rfl
          have ht2 : takeDigitChars ((d2 :: dt2).map digitC ++ ('e' :: (expChars e ++ rest))) =
              ((d2 :: dt2).map digitC, 'e' :: (expChars e ++ rest)) :=
            takeDigitChars_append _ _
              (by intro c hcm; obtain ⟨x, hx, rfl⟩ := List.mem_map.mp hcm;
                  exact isDigitC_digitC x) rfl
          unfold parseNumTail parseFracTail
          rw [ht1]
          simp only [List.isEmpty_cons, Bool.false_eq_true, if_false, ite_false,
            fracStarts_dot, if_true, ite_true, List.tail_cons, ht2, expStarts_e,
            show ((d2 :: dt2).map digitC).isEmpty = false from by simp]
          rw [parseExpTail_expChars neg [digitC d] ((d2 :: dt2).map digitC) e rest hnd]
          have hsplit : charsToDigits ([digitC d] ++ (d2 :: dt2).map digitC) =
              List.replicate 0 0 ++ (d :: d2 :: dt2) ++ List.replicate 0 0 := by
            rw [show ([digitC d] ++ (d2 :: dt2).map digitC : List Char) =
                (d :: d2 :: dt2).map digitC from by simp,
              charsToDigits_map_digitC _ hall]
            simp
          rw [floatOfDecimal_shape neg 0 0 e [digitC d] ((d2 :: dt2).map digitC) hsplit hne hh hl]
          refine congrArg (fun E : Int =>
            (Except.ok (JVal.jfloat neg (d :: d2 :: dt2) E, rest) :
              Except String (JVal × List Char))) ?_
          simp only [List.length_cons, List.length_map, List.length_singleton,
            List.length_nil, List.replicate_zero]
          push_cast
          ring
    · -- positional notation
      have hA : -4 ≤ e := le_of_not_lt (fun hx => hsci (Or.inl hx))
      have hB : e < 16 := lt_of_not_le (fun hx => hsci (Or.inr hx))
      by_cases hpos : (0 : Int) ≤ e
      · by_cases hint : (d :: dt).length ≤ e.toNat + 1
        · -- integral value: digits, zero pad, ".0"
          have hface : floatAbsChars (d :: dt) e ++ rest =
              ((d :: dt).map digitC ++ List.replicate (e.toNat + 1 - (d :: dt).length) '0') ++
                ('.' :: ('0' :: rest)) := by
            unfold floatAbsChars
            rw [if_neg hsci, if_pos hpos, if_pos hint]
            simp [List.append_assoc]
          rw [hface]
          have hpref : ∀ c ∈ (d :: dt).map digitC ++
              List.replicate (e.toNat + 1 - (d :: dt).length) '0', isDigitC c = true := by
            intro c hcm
            rcases List.mem_append.mp hcm with h1 | h1
            · obtain ⟨x, hx, rfl⟩ := List.mem_map.mp h1
              exact isDigitC_digitC x
            · rw [List.eq_of_mem_replicate h1]
              rfl
          have ht1 := takeDigitChars_append _ ('.' :: ('0' :: rest)) hpref rfl
          have ht2 : takeDigitChars ('0' :: rest) = (['0'], rest) :=
            takeDigitChars_append ['0'] rest
              (by intro c hcm; simp only [List.mem_singleton] at hcm; subst hcm; rfl) hnd
          unfold parseNumTail parseFracTail
          rw [ht1]
          simp only [List.isEmpty_cons, Bool.false_eq_true, if_false, ite_false,
            fracStarts_dot, if_true, ite_true, List.tail_cons, ht2, hes,
            show ((d :: dt).map digitC ++
              List.replicate (e.toNat + 1 - (d :: dt).length) '0').isEmpty = false from by simp]
          have hz : e.toNat + 2 - (d :: dt).length = (e.toNat + 1 - (d :: dt).length) + 1 := by
            simp only [List.length_cons] at hint ⊢
            omega
          have hsplit : charsToDigits (((d :: dt).map digitC ++
              List.replicate (e.toNat + 1 - (d :: dt).length) '0') ++ ['0']) =
              List.replicate 0 0 ++ (d :: dt) ++
                List.replicate (e.toNat + 2 - (d :: dt).length) 0 := by
            rw [charsToDigits_append, charsToDigits_append,
              charsToDigits_map_digitC _ hall, charsToDigits_replicate0,
              show charsToDigits ['0'] = [0] from rfl, hz]
            simp [List.replicate_succ', List.append_assoc]
          rw [floatOfDecimal_shape neg 0 (e.toNat + 2 - (d :: dt).length) 0 _ _ hsplit hne hh hl]
          refine congrArg (fun E : Int =>
            (Except.ok (JVal.jfloat neg (d :: dt) E, rest) :
              Except String (JVal × List Char))) ?_
          simp only [List.length_cons, List.length_nil, List.length_singleton] at hint ⊢
          omega
        · -- digits split by the point
          have hk : ((d :: dt).map digitC).take (e.toNat + 1) =
              digitC d :: ((dt.map digitC).take e.toNat) := by
            simp [List.take_succ_cons]
          have hface : floatAbsChars (d :: dt) e ++ rest =
              (digitC d :: ((dt.map digitC).take e.toNat)) ++
                ('.' :: (((d :: dt).map digitC).drop (e.toNat + 1) ++ rest)) := by
            unfold floatAbsChars
            rw [if_neg hsci, if_pos hpos, if_neg hint, hk]
            simp [List.append_assoc]
          rw [hface]
          have hpref : ∀ c ∈ digitC d :: ((dt.map digitC).take e.toNat), isDigitC c = true := by
            intro c hcm
            rcases List.mem_cons.mp hcm with h1 | h1
            · subst h1
              exact isDigitC_digitC d
            · obtain ⟨x, hx, rfl⟩ := List.mem_map.mp (List.take_subset _ _ h1)
              exact isDigitC_digitC x
          have ht1 := takeDigitChars_append _
            ('.' :: (((d :: dt).map digitC).drop (e.toNat + 1) ++ rest)) hpref rfl
          have hpref2 : ∀ c ∈ ((d :: dt).map digitC).drop (e.toNat + 1), isDigitC c = true := by
            intro c hcm
            obtain ⟨x, hx, rfl⟩ := List.mem_map.mp (List.drop_subset _ _ hcm)
            exact isDigitC_digitC x
          have ht2 := takeDigitChars_append _ rest hpref2 hnd
          have hdropne : (((d :: dt).map digitC).drop (e.toNat + 1)).isEmpty = false := by
            apply isEmpty_false_of_ne_nil
            intro h0
            have hlen := congrArg List.length h0
            simp only [List.length_drop, List.length_map, List.length_cons,
              List.length_nil] at hlen
            simp only [List.length_cons] at hint
            omega
          unfold parseNumTail parseFracTail
          rw [ht1]
          simp only [List.isEmpty_cons, Bool.false_eq_true, if_false, ite_false,
            fracStarts_dot, if_true, ite_true, List.tail_cons, ht2, hdropne, hes]
          have hsplit : charsToDigits ((digitC d :: ((dt.map digitC).take e.toNat)) ++
              ((d :: dt).map digitC).drop (e.toNat + 1)) =
              List.replicate 0 0 ++ (d :: dt) ++ List.replicate 0 0 := by
            rw [show (digitC d :: ((dt.map digitC).take e.toNat) : List Char) =
                ((d :: dt).map digitC).take (e.toNat + 1) from hk.symm,
              List.take_append_drop, charsToDigits_map_digitC _ hall]
            simp
          rw [floatOfDecimal_shape neg 0 0 0 _ _ hsplit hne hh hl]
          refine congrArg (fun E : Int =>
            (Except.ok (JVal.jfloat neg (d :: dt) E, rest) :
              Except String (JVal × List Char))) ?_
          simp only [List.length_cons, List.length_drop, List.length_map] at hint ⊢
          omega
      · -- purely fractional value: 0.00…digits
        have hface : floatAbsChars (d :: dt) e ++ rest =
            '0' :: ('.' :: ((List.replicate (e.natAbs - 1) '0' ++ (d :: dt).map digitC) ++ rest)) := by
          unfold floatAbsChars
          rw [if_neg hsci, if_neg hpos]
          simp [List.append_assoc]
        rw [hface]
        have ht1 : takeDigitChars
            ('0' :: ('.' :: ((List.replicate (e.natAbs - 1) '0' ++ (d :: dt).map digitC) ++ rest))) =
            (['0'], '.' :: ((List.replicate (e.natAbs - 1) '0' ++ (d :: dt).map digitC) ++ rest)) :=
          takeDigitChars_append ['0'] _
            (by intro c hcm; simp only [List.mem_singleton] at hcm; subst hcm; rfl) rfl
        have hpref2 : ∀ c ∈ List.replicate (e.natAbs - 1) '0' ++ (d :: dt).map digitC,
            isDigitC c = true := by
          intro c hcm
          rcases List.mem_append.mp hcm with h1 | h1
          · rw [List.eq_of_mem_replicate h1]
            rfl
          · obtain ⟨x, hx, rfl⟩ := List.mem_map.mp h1
            exact isDigitC_digitC x
        have ht2 := takeDigitChars_append _ rest hpref2 hnd
        have hfpne : (List.replicate (e.natAbs - 1) '0' ++ (d :: dt).map digitC).isEmpty = false := by
          apply isEmpty_false_of_ne_nil
          simp
        unfold parseNumTail parseFracTail
        rw [ht1]
        simp only [List.isEmpty_cons, Bool.false_eq_true, if_false, ite_false,
          fracStarts_dot, if_true, ite_true, List.tail_cons, ht2, hfpne, hes]
        have hsplit : charsToDigits
            (['0'] ++ (List.replicate (e.natAbs - 1) '0' ++ (d :: dt).map digitC)) =
            List.replicate (e.natAbs - 1 + 1) 0 ++ (d :: dt) ++ List.replicate 0 0 := by
          rw [charsToDigits_append, charsToDigits_append, charsToDigits_replicate0,
            charsToDigits_map_digitC _ hall,
            show charsToDigits ['0'] = [0] from rfl]
          simp [List.replicate_succ, List.append_assoc]
        rw [floatOfDecimal_shape neg (e.natAbs - 1 + 1) 0 0 _ _ hsplit hne hh hl]
        refine congrArg (fun E : Int =>
          (Except.ok (JVal.jfloat neg (d :: dt) E, rest) :
            Except String (JVal × List Char))) ?_
        simp only [List.length_cons, List.length_append, List.length_replicate,
          List.length_map]
        omega

/-! ## Whitespace lemmas -/

theorem skipWs_not_ws {c : Char} (l : List Char) (h : isWsC c = false) :
    skipWs (c :: l) = c :: l := by
  simp [skipWs, h]

theorem skipWs_space (l : List Char) : skipWs (' ' :: l) = skipWs l := by
  simp [skipWs, isWsC]

/-! ## Hex escape lemmas -/

theorem isHexC_hexChar {m : Nat} (hm : m < 16) : isHexC (hexChar m) = true := by
  interval_cases m <;> decide

theorem hexVal_hexChar {m : Nat} (hm : m < 16) : hexVal (hexChar m) = m := by
  interval_cases m <;> decide

/-- A character's code is a valid scalar value: below the surrogate range or
above it and below `0x110000`. -/
theorem char_toNat_range (c : Char) :
    c.toNat < 55296 ∨ (57343 < c.toNat ∧ c.toNat < 1114112) := by
  have h := c.valid
  rcases h with h | ⟨h1, h2⟩
  · exact Or.inl h
  · exact Or.inr ⟨h1, h2⟩

/-! ## String escape round trip -/

theorem psc_quote (fuel : Nat) (l : List Char) :
    parseStringChars (fuel + 1) (quoteC :: l) = .ok ([], l) := rfl

theorem psc_esc_quote (fuel : Nat) (l : List Char) :
    parseStringChars (fuel + 1) (bslashC :: quoteC :: l) =
      consStrResult quoteC (parseStringChars fuel l) := rfl

theorem psc_esc_bslash (fuel : Nat) (l : List Char) :
    parseStringChars (fuel + 1) (bslashC :: bslashC :: l) =
      consStrResult bslashC (parseStringChars fuel l) := rfl

theorem psc_esc_b (fuel : Nat) (l : List Char) :
    parseStringChars (fuel + 1) (bslashC :: Char.ofNat 98 :: l) =
      consStrResult (Char.ofNat 8) (parseStringChars fuel l) := rfl

theorem psc_esc_t (fuel : Nat) (l : List Char) :
    parseStringChars (fuel + 1) (bslashC :: Char.ofNat 116 :: l) =
      consStrResult (Char.ofNat 9) (parseStringChars fuel l) := rfl

theorem psc_esc_n (fuel : Nat) (l : List Char) :
    parseStringChars (fuel + 1) (bslashC :: Char.ofNat 110 :: l) =
      consStrResult (Char.ofNat 10) (parseStringChars fuel l) := rfl

theorem psc_esc_f (fuel : Nat) (l : List Char) :
    parseStringChars (fuel + 1) (bslashC :: Char.ofNat 102 :: l) =
      consStrResult (Char.ofNat 12) (parseStringChars fuel l) := rfl

theorem psc_esc_r (fuel : Nat) (l : List Char) :
    parseStringChars (fuel + 1) (bslashC :: Char.ofNat 114 :: l) =
      consStrResult (Char.ofNat 13) (parseStringChars fuel l) := rfl

theorem psc_lit (c : Char) (fuel : Nat) (l : List Char)
    (h1 : c ≠ quoteC) (h2 : c ≠ bslashC) :
    parseStringChars (fuel + 1) (c :: l) = consStrResult c (parseStringChars fuel l) := by
  simp only [parseStringChars]
  rw [if_neg h1, if_neg h2]

/-- Evaluation of the parser on a `\uXXXX` escape whose value is not a
surrogate. -/
theorem psc_u4 (m : Nat) (fuel : Nat) (l : List Char) (hm : m < 65536)
    (hlo : ¬(55296 ≤ m ∧ m < 56320)) (hhi : ¬(56320 ≤ m ∧ m < 57344)) :
    parseStringChars (fuel + 1) (bslashC :: Char.ofNat 117 :: (hex4 m ++ l)) =
      consStrResult (Char.ofNat m) (parseStringChars fuel l) := by
  have ha : m / 4096 % 16 < 16 := Nat.mod_lt _ (by omega)
  have hb : m / 256 % 16 < 16 := Nat.mod_lt _ (by omega)
  have hc : m / 16 % 16 < 16 := Nat.mod_lt _ (by omega)
  have hd : m % 16 < 16 := Nat.mod_lt _ (by omega)
  show parseStringChars (fuel + 1) (bslashC :: Char.ofNat 117 :: hexChar (m / 4096 % 16) ::
      hexChar (m / 256 % 16) :: hexChar (m / 16 % 16) :: hexChar (m % 16) :: l) = _
  simp only [parseStringChars, show ¬(bslashC = quoteC) by decide,
    show ¬(Char.ofNat 117 = quoteC) by decide, show ¬(Char.ofNat 117 = bslashC) by decide,
    show ¬(Char.ofNat 117 = '/') by decide, show ¬(Char.ofNat 117 = 'b') by decide,
    show ¬(Char.ofNat 117 = 'f') by decide, show ¬(Char.ofNat 117 = 'n') by decide,
    show ¬(Char.ofNat 117 = 'r') by decide, show ¬(Char.ofNat 117 = 't') by decide,
    show (Char.ofNat 117 = 'u') by decide, isHexC_hexChar ha, isHexC_hexChar hb,
    isHexC_hexChar hc, isHexC_hexChar hd, hexVal_hexChar ha, hexVal_hexChar hb,
    hexVal_hexChar hc, hexVal_hexChar hd, if_true, if_false, Bool.true_and,
    Bool.and_self, eq_self_iff_true, ite_true, ite_false]
  have hval : ((m / 4096 % 16 * 16 + m / 256 % 16) * 16 + m / 16 % 16) * 16 + m % 16 = m := by
    omega
  rw [hval]
  rw [if_neg (by simp only [Bool.and_eq_true, decide_eq_true_eq, not_and]; omega)]
  rw [if_neg (by simp only [Bool.and_eq_true, decide_eq_true_eq, not_and]; omega)]

/-- Evaluation of the parser on a surrogate pair of `\uXXXX` escapes. -/
theorem psc_u8 (m : Nat) (fuel : Nat) (l : List Char) (hm1 : 65536 ≤ m) (hm2 : m < 1114112) :
    parseStringChars (fuel + 1) (bslashC :: Char.ofNat 117 ::
        (hex4 (55296 + (m - 65536) / 1024) ++
          (bslashC :: Char.ofNat 117 :: (hex4 (56320 + (m - 65536) % 1024) ++ l)))) =
      consStrResult (Char.ofNat m) (parseStringChars fuel l) := by
  set hi := 55296 + (m - 65536) / 1024 with hhi
  set lo := 56320 + (m - 65536) % 1024 with hlo
  have hhibound : hi < 56320 := by
    have : (m - 65536) / 1024 < 1024 := by omega
    omega
  have hlobound : lo < 57344 := by
    have : (m - 65536) % 1024 < 1024 := Nat.mod_lt _ (by omega)
    omega
  have ha : hi / 4096 % 16 < 16 := Nat.mod_lt _ (by omega)
  have hb : hi / 256 % 16 < 16 := Nat.mod_lt _ (by omega)
  have hc : hi / 16 % 16 < 16 := Nat.mod_lt _ (by omega)
  have hd : hi % 16 < 16 := Nat.mod_lt _ (by omega)
  have ga : lo / 4096 % 16 < 16 := Nat.mod_lt _ (by omega)
  have gb : lo / 256 % 16 < 16 := Nat.mod_lt _ (by omega)
  have gc : lo / 16 % 16 < 16 := Nat.mod_lt _ (by omega)
  have gd : lo % 16 < 16 := Nat.mod_lt _ (by omega)
  show parseStringChars (fuel + 1) (bslashC :: Char.ofNat 117 :: hexChar (hi / 4096 % 16) ::
      hexChar (hi / 256 % 16) :: hexChar (hi / 16 % 16) :: hexChar (hi % 16) ::
      bslashC :: Char.ofNat 117 :: hexChar (lo / 4096 % 16) :: hexChar (lo / 256 % 16) ::
      hexChar (lo / 16 % 16) :: hexChar (lo % 16) :: l) = _
  simp only [parseStringChars, show ¬(bslashC = quoteC) by decide,
    show ¬(Char.ofNat 117 = quoteC) by decide, show ¬(Char.ofNat 117 = bslashC) by decide,
    show ¬(Char.ofNat 117 = '/') by decide, show ¬(Char.ofNat 117 = 'b') by decide,
    show ¬(Char.ofNat 117 = 'f') by decide, show ¬(Char.ofNat 117 = 'n') by decide,
    show ¬(Char.ofNat 117 = 'r') by decide, show ¬(Char.ofNat 117 = 't') by decide,
    show (Char.ofNat 117 = 'u') by decide, isHexC_hexChar ha, isHexC_hexChar hb,
    isHexC_hexChar hc, isHexC_hexChar hd, isHexC_hexChar ga, isHexC_hexChar gb,
    isHexC_hexChar gc, isHexC_hexChar gd, hexVal_hexChar ha, hexVal_hexChar hb,
    hexVal_hexChar hc, hexVal_hexChar hd, hexVal_hexChar ga, hexVal_hexChar gb,
    hexVal_hexChar gc, hexVal_hexChar gd, if_true, if_false, Bool.true_and,
    Bool.and_self, eq_self_iff_true, ite_true, ite_false, decide_True, Bool.and_true]
  have hvalhi : ((hi / 4096 % 16 * 16 + hi / 256 % 16) * 16 + hi / 16 % 16) * 16 + hi % 16 = hi := by
    omega
  have hvallo : ((lo / 4096 % 16 * 16 + lo / 256 % 16) * 16 + lo / 16 % 16) * 16 + lo % 16 = lo := by
    omega
  rw [hvalhi, hvallo]
  rw [if_pos (by simp only [Bool.and_eq_true, decide_eq_true_eq]; omega)]
  rw [if_pos (by simp only [Bool.and_eq_true, decide_eq_true_eq]; omega)]
  have hcomb : 65536 + (hi - 55296) * 1024 + (lo - 56320) = m := by
    omega
  rw [hcomb]

/-- Round trip of the string escaper: with fuel above the character count,
parsing the escaped characters up to the closing quote recovers them
exactly. -/
theorem parseStringChars_roundtrip : ∀ (cs : List Char) (fuel : Nat) (rest : List Char),
    cs.length < fuel →
    parseStringChars fuel (cs.flatMap escChar ++ quoteC :: rest) = .ok (cs, rest) := by
  intro cs
  induction cs with
  | nil =>
      intro fuel rest hfuel
      cases fuel with
      | zero => omega
      | succ f => rw [List.flatMap_nil, List.nil_append, psc_quote]
  | cons c t ih =>
      intro fuel rest hfuel
      cases fuel with
      | zero => simp at hfuel
      | succ f =>
      have hf : t.length < f := by simp at hfuel; omega
      have ih : ∀ rest, parseStringChars f (t.flatMap escChar ++ quoteC :: rest) =
          .ok (t, rest) := fun rest => ih f rest hf
      rw [List.flatMap_cons, List.append_assoc]
      by_cases h34 : c.toNat = 34
      · have hc : c = quoteC := by rw [← Char.ofNat_toNat c, h34]; rfl
        rw [hc, show escChar quoteC = [bslashC, quoteC] from rfl]
        simp only [List.cons_append, List.nil_append]
        rw [psc_esc_quote, ih rest]
        rfl
      · by_cases h92 : c.toNat = 92
        · have hc : c = bslashC := by rw [← Char.ofNat_toNat c, h92]; rfl
          rw [hc, show escChar bslashC = [bslashC, bslashC] from rfl]
          simp only [List.cons_append, List.nil_append]
          rw [psc_esc_bslash, ih rest]
          rfl
        · by_cases h8 : c.toNat = 8
          · have hc : c = Char.ofNat 8 := by rw [← Char.ofNat_toNat c, h8]
            rw [hc, show escChar (Char.ofNat 8) = [bslashC, Char.ofNat 98] from rfl]
            simp only [List.cons_append, List.nil_append]
            rw [psc_esc_b, ih rest]
            rfl
          · by_cases h9 : c.toNat = 9
            · have hc : c = Char.ofNat 9 := by rw [← Char.ofNat_toNat c, h9]
              rw [hc, show escChar (Char.ofNat 9) = [bslashC, Char.ofNat 116] from rfl]
              simp only [List.cons_append, List.nil_append]
              rw [psc_esc_t, ih rest]
              rfl
            · by_cases h10 : c.toNat = 10
              · have hc : c = Char.ofNat 10 := by rw [← Char.ofNat_toNat c, h10]
                rw [hc, show escChar (Char.ofNat 10) = [bslashC, Char.ofNat 110] from rfl]
                simp only [List.cons_append, List.nil_append]
                rw [psc_esc_n, ih rest]
                rfl
              · by_cases h12 : c.toNat = 12
                · have hc : c = Char.ofNat 12 := by rw [← Char.ofNat_toNat c, h12]
                  rw [hc, show escChar (Char.ofNat 12) = [bslashC, Char.ofNat 102] from rfl]
                  simp only [List.cons_append, List.nil_append]
                  rw [psc_esc_f, ih rest]
                  rfl
                · by_cases h13 : c.toNat = 13
                  · have hc : c = Char.ofNat 13 := by rw [← Char.ofNat_toNat c, h13]
                    rw [hc, show escChar (Char.ofNat 13) = [bslashC, Char.ofNat 114] from rfl]
                    simp only [List.cons_append, List.nil_append]
                    rw [psc_esc_r, ih rest]
                    rfl
                  · by_cases hprint : 32 ≤ c.toNat ∧ c.toNat < 127
                    · have hesc : escChar c = [c] := by
                        unfold escChar
                        rw [if_neg h34, if_neg h92, if_neg h8, if_neg h9, if_neg h10,
                          if_neg h12, if_neg h13,
                          if_pos (by simp only [Bool.and_eq_true, decide_eq_true_eq]
                                     exact ⟨hprint.1, hprint.2⟩)]
                      rw [hesc]
                      simp only [List.cons_append, List.nil_append]
                      have hnq : c ≠ quoteC := fun h => h34 (by rw [h]; rfl)
                      have hnb : c ≠ bslashC := fun h => h92 (by rw [h]; rfl)
                      rw [psc_lit c _ _ hnq hnb, ih rest]
                      rfl
                    · by_cases hbmp : c.toNat < 65536
                      · have hesc : escChar c =
                            bslashC :: Char.ofNat 117 :: hex4 c.toNat := by
                          unfold escChar
                          rw [if_neg h34, if_neg h92, if_neg h8, if_neg h9, if_neg h10,
                            if_neg h12, if_neg h13,
                            if_neg (by simp only [Bool.and_eq_true, decide_eq_true_eq]
                                       exact hprint),
                            if_pos hbmp]
                        rw [hesc]
                        simp only [List.cons_append, List.append_assoc]
                        have hrange := char_toNat_range c
                        rw [psc_u4 c.toNat _ _ hbmp (by omega) (by omega),
                          Char.ofNat_toNat, ih rest]
                        rfl
                      · have hesc : escChar c =
                            bslashC :: Char.ofNat 117 :: hex4 (55296 + (c.toNat - 65536) / 1024) ++
                            bslashC :: Char.ofNat 117 :: hex4 (56320 + (c.toNat - 65536) % 1024) := by
                          unfold escChar
                          rw [if_neg h34, if_neg h92, if_neg h8, if_neg h9, if_neg h10,
                            if_neg h12, if_neg h13,
                            if_neg (by simp only [Bool.and_eq_true, decide_eq_true_eq]
                                       exact hprint),
                            if_neg hbmp]
                        rw [hesc]
                        have hrange := char_toNat_range c
                        simp only [List.cons_append, List.append_assoc]
                        rw [psc_u8 c.toNat _ _ (by omega) (by omega), Char.ofNat_toNat, ih rest]
                        rfl

/-! ## Weight and shape lemmas for the JSON grammar -/

theorem jweightV_pos : ∀ v : JVal, 1 ≤ jweightV v := by
  intro v
  cases v <;> simp [jweightV]

theorem escChar_length_pos (c : Char) : 1 ≤ (escChar c).length := by
  simp only [escChar]
  repeat' split
  all_goals simp

theorem flatMap_escChar_ge (l : List Char) : l.length ≤ (l.flatMap escChar).length := by
  induction l with
  | nil => simp
  | cons c t ih =>
      simp only [List.flatMap_cons, List.length_append, List.length_cons]
      have := escChar_length_pos c
      omega

/-! The parser fuel bound: a value's weight never exceeds its printed
length. -/

mutual

theorem jweight_le_len : ∀ v : JVal, jweightV v ≤ (dumpVal v).length
  | .jnull => by simp [jweightV, dumpVal]
  | .jbool b => by cases b <;> simp [jweightV, dumpVal]
  | .jnum n => by
      have h : natDigits n.natAbs ≠ [] := natDigits_ne_nil _
      have h2 : natDigits n.toNat ≠ [] := natDigits_ne_nil _
      simp only [jweightV, dumpVal, intChars]
      split
      · simp
      · exact Nat.one_le_iff_ne_zero.mpr (by simpa [List.length_eq_zero] using h2)
  | .jfloat neg ds e => by
      obtain ⟨m, l, _, hfa⟩ := floatAbsChars_head ds e
      simp only [jweightV, dumpVal, hfa]
      cases neg <;> simp
  | .jstr s => by simp [jweightV, dumpVal, dumpStr]
  | .jarr [] => by simp [jweightV, dumpVal, eweightL]
  | .jarr (x :: t) => by
      have h1 := jweight_le_len x
      have h2 := eweight_le_len t
      simp only [jweightV, dumpVal, eweightL, List.length_cons, List.length_append,
        List.length_singleton]
      omega
  | .jobj [] => by simp [jweightV, dumpVal, mweightL]
  | .jobj ((k, v) :: t) => by
      have h1 := jweight_le_len v
      have h2 := mweight_le_len t
      simp only [jweightV, dumpVal, mweightL, dumpMember, dumpStr, List.length_cons,
        List.length_append, List.length_singleton]
      omega

theorem eweight_le_len : ∀ xs : List JVal, eweightL xs ≤ (dumpElems xs).length
  | [] => by simp [eweightL, dumpElems]
  | x :: t => by
      have h1 := jweight_le_len x
      have h2 := eweight_le_len t
      simp only [eweightL, dumpElems, List.length_cons, List.length_append]
      omega

theorem mweight_le_len : ∀ ms : List (String × JVal), mweightL ms ≤ (dumpMembers ms).length
  | [] => by simp [mweightL, dumpMembers]
  | (k, v) :: t => by
      have h1 := jweight_le_len v
      have h2 := mweight_le_len t
      simp only [mweightL, dumpMembers, dumpMember, dumpStr, List.length_cons,
        List.length_append, List.length_singleton]
      omega

end

/-- Small facts about a digit head character, used to drive the parser's
branch dispatch. -/
theorem digit_dispatch {m : Nat} (hm : m < 10) :
    isDigitC (digitC m) = true ∧ digitC m ≠ 'n' ∧ digitC m ≠ 't' ∧ digitC m ≠ 'f' ∧
    digitC m ≠ quoteC ∧ digitC m ≠ '[' ∧ digitC m ≠ Char.ofNat 123 ∧
    digitC m ≠ Char.ofNat 45 ∧ isWsC (digitC m) = false ∧ digitC m ≠ ']' ∧
    digitC m ≠ Char.ofNat 125 := by
  interval_cases m <;> decide

/-- Every printed value starts with a definite non-whitespace character that
is not a closing bracket or brace. -/
theorem dump_head : ∀ v : JVal, ∃ c l, dumpVal v = c :: l ∧ isWsC c = false ∧
    c ≠ ']' ∧ c ≠ Char.ofNat 125 := by
  intro v
  cases v with
  | jnull => exact ⟨'n', _, rfl, by decide, by decide, by decide⟩
  | jbool b =>
      cases b
      · exact ⟨'f', _, rfl, by decide, by decide, by decide⟩
      · exact ⟨'t', _, rfl, by decide, by decide, by decide⟩
  | jnum n =>
      by_cases hneg : n < 0
      · refine ⟨Char.ofNat 45, natDigits n.natAbs, ?_, by decide, by decide, by decide⟩
        simp [dumpVal, intChars, hneg]
      · obtain ⟨m, t, hm, ht⟩ := natDigits_head n.toNat
        obtain ⟨_, _, _, _, _, _, _, _, hws, hrb, hbr⟩ := digit_dispatch hm
        refine ⟨digitC m, t, ?_, hws, hrb, hbr⟩
        simp [dumpVal, intChars, hneg, ht]
  | jfloat neg ds e =>
      obtain ⟨m, l, hm, hfa⟩ := floatAbsChars_head ds e
      cases neg with
      | false =>
          obtain ⟨_, _, _, _, _, _, _, _, hws, hrb, hbr⟩ := digit_dispatch hm
          refine ⟨digitC m, l, ?_, hws, hrb, hbr⟩
          simp [dumpVal, hfa]
      | true =>
          refine ⟨Char.ofNat 45, floatAbsChars ds e, ?_, by decide, by decide, by decide⟩
          simp [dumpVal]
  | jstr s => exact ⟨quoteC, _, rfl, by decide, by decide, by decide⟩
  | jarr xs =>
      cases xs with
      | nil => exact ⟨'[', _, rfl, by decide, by decide, by decide⟩
      | cons x t => exact ⟨'[', _, rfl, by decide, by decide, by decide⟩
  | jobj ms =>
      cases ms with
      | nil => exact ⟨Char.ofNat 123, _, rfl, by decide, by decide, by decide⟩
      | cons m t => exact ⟨Char.ofNat 123, _, rfl, by decide, by decide, by decide⟩

/-- The remainder after an array element never extends a number. -/
theorem numSafe_elems (xs : List JVal) (rest : List Char) :
    numSafe (dumpElems xs ++ ']' :: rest) = true := by
  cases xs <;> rfl

/-- The remainder after an object member's value never extends a number. -/
theorem numSafe_members (ms : List (String × JVal)) (rest : List Char) :
    numSafe (dumpMembers ms ++ Char.ofNat 125 :: rest) = true := by
  cases ms <;> rfl

/-- Whitespace skipping does not touch a printed value. -/
theorem skipWs_dump (v : JVal) (R : List Char) : skipWs (dumpVal v ++ R) = dumpVal v ++ R := by
  obtain ⟨c, l, h, hws, _, _⟩ := dump_head v
  rw [h, List.cons_append, skipWs_not_ws _ hws]

/-- A printed member starts with the opening quote of its key, the rest laid
out flat. -/
theorem dumpMember_shape (k : String) (v : JVal) (R : List Char) :
    dumpMember (k, v) ++ R =
      quoteC :: (k.data.flatMap escChar ++ (quoteC :: ':' :: ' ' :: (dumpVal v ++ R))) := by
  show (quoteC :: (k.data.flatMap escChar ++ [quoteC]) ++ (':' :: ' ' :: dumpVal v)) ++ R = _
  simp [List.append_assoc]

/-- The printer–parser round trip, by strong induction on the parser fuel:
one dumped value before a number-safe remainder; the elements of a dumped
array up to its closing bracket; the members of a dumped object up to its
closing brace. -/
theorem parse_dump_all : ∀ fuel : Nat,
    (∀ (v : JVal) (rest : List Char), canonicalV v = true → jweightV v ≤ fuel →
        numSafe rest = true → parseValue fuel (dumpVal v ++ rest) = .ok (v, rest)) ∧
    (∀ (x : JVal) (xs : List JVal) (acc : List JVal) (cs rest : List Char),
        canonicalL (x :: xs) = true → eweightL (x :: xs) ≤ fuel →
        skipWs cs = dumpVal x ++ (dumpElems xs ++ ']' :: rest) →
        parseElems fuel cs acc = .ok (acc ++ x :: xs, rest)) ∧
    (∀ (k : String) (v : JVal) (ms : List (String × JVal))
        (acc : List (String × JVal)) (rest : List Char),
        canonicalM ((k, v) :: ms) = true → mweightL ((k, v) :: ms) ≤ fuel →
        parseMembers fuel (dumpMember (k, v) ++ (dumpMembers ms ++ Char.ofNat 125 :: rest)) acc =
          .ok (acc ++ (k, v) :: ms, rest)) := by
  intro fuel
  induction fuel using Nat.strong_induction_on with
  | _ fuel ih =>
  refine ⟨?_, ?_, ?_⟩
  · -- one value
    intro v rest hcan hw hsafe
    cases fuel with
    | zero => have := jweightV_pos v; omega
    | succ f =>
    cases v with
    | jnull =>
        show parseValue (f + 1) ('n' :: 'u' :: 'l' :: 'l' :: rest) = _
        simp [parseValue, parseNullKw]
    | jbool b =>
        cases b
        · show parseValue (f + 1) ('f' :: 'a' :: 'l' :: 's' :: 'e' :: rest) = _
          simp [parseValue, parseFalseKw, show ¬('f' = 'n') by decide,
            show ¬('f' = 't') by decide]
        · show parseValue (f + 1) ('t' :: 'r' :: 'u' :: 'e' :: rest) = _
          simp [parseValue, parseTrueKw, show ¬('t' = 'n') by decide]
    | jnum n =>
        by_cases hneg : n < 0
        · have hd : dumpVal (.jnum n) ++ rest = Char.ofNat 45 :: (natDigits n.natAbs ++ rest) := by
            show intChars n ++ rest = _
            simp [intChars, hneg]
          rw [hd]
          simp only [parseValue, show ¬(Char.ofNat 45 = 'n') by decide,
            show ¬(Char.ofNat 45 = 't') by decide, show ¬(Char.ofNat 45 = 'f') by decide,
            show ¬(Char.ofNat 45 = quoteC) by decide, show ¬(Char.ofNat 45 = '[') by decide,
            show ¬(Char.ofNat 45 = Char.ofNat 123) by decide, eq_self_iff_true,
            if_true, if_false, ite_true, ite_false]
          rw [parseNumTail_int true n.natAbs rest hsafe]
          have hval : intSign true n.natAbs = n := by
            rw [intSign_true]
            omega
          rw [hval]
        · have hd : dumpVal (.jnum n) ++ rest = natDigits n.toNat ++ rest := by
            show intChars n ++ rest = _
            simp [intChars, hneg]
          obtain ⟨m, tl, hm, htl⟩ := natDigits_head n.toNat
          obtain ⟨hdig, hn1, hn2, hn3, hn4, hn5, hn6, hn7, _, _, _⟩ := digit_dispatch hm
          rw [hd, htl, List.cons_append]
          simp only [parseValue, hn1, hn2, hn3, hn4, hn5, hn6, hn7, hdig,
            if_true, if_false, ite_true, ite_false]
          rw [← List.cons_append, ← htl, parseNumTail_int false n.toNat rest hsafe]
          have hval : intSign false n.toNat = n := by
            rw [intSign_false]
            omega
          rw [hval]
    | jfloat neg ds e =>
        have hc : floatCanon ds e = true := by simpa [canonicalV] using hcan
        cases neg with
        | true =>
            have hd : dumpVal (.jfloat true ds e) ++ rest =
                Char.ofNat 45 :: (floatAbsChars ds e ++ rest) := by
              simp [dumpVal]
            rw [hd]
            simp only [parseValue, show ¬(Char.ofNat 45 = 'n') by decide,
              show ¬(Char.ofNat 45 = 't') by decide, show ¬(Char.ofNat 45 = 'f') by decide,
              show ¬(Char.ofNat 45 = quoteC) by decide, show ¬(Char.ofNat 45 = '[') by decide,
              show ¬(Char.ofNat 45 = Char.ofNat 123) by decide, eq_self_iff_true,
              if_true, if_false, ite_true, ite_false]
            exact parseNumTail_float true ds e rest hc hsafe
        | false =>
            obtain ⟨m, l, hm, hfa⟩ := floatAbsChars_head ds e
            obtain ⟨hdig, hn1, hn2, hn3, hn4, hn5, hn6, hn7, _, _, _⟩ := digit_dispatch hm
            have hd : dumpVal (.jfloat false ds e) ++ rest = digitC m :: (l ++ rest) := by
              simp [dumpVal, hfa]
            rw [hd]
            simp only [parseValue, hn1, hn2, hn3, hn4, hn5, hn6, hn7, hdig,
              if_true, if_false, ite_true, ite_false]
            rw [← List.cons_append, ← hfa]
            exact parseNumTail_float false ds e rest hc hsafe
    | jstr s =>
        show parseValue (f + 1)
            (quoteC :: ((s.data.flatMap escChar ++ [quoteC]) ++ rest)) = _
        simp only [parseValue, show ¬(quoteC = 'n') by decide, show ¬(quoteC = 't') by decide,
          show ¬(quoteC = 'f') by decide, eq_self_iff_true, if_true, if_false,
          ite_true, ite_false]
        rw [List.append_assoc, List.singleton_append]
        have hlen : s.data.length < (s.data.flatMap escChar ++ quoteC :: rest).length + 1 := by
          have := flatMap_escChar_ge s.data
          simp only [List.length_append, List.length_cons]
          omega
        rw [parseStringChars_roundtrip s.data _ rest hlen]
    | jarr xs =>
        cases xs with
        | nil =>
            show parseValue (f + 1) ('[' :: ']' :: rest) = _
            simp only [parseValue, show ¬('[' = 'n') by decide, show ¬('[' = 't') by decide,
              show ¬('[' = 'f') by decide, show ¬('[' = quoteC) by decide, eq_self_iff_true,
              if_true, if_false, ite_true, ite_false]
            have hsk : skipWs (']' :: rest) = ']' :: rest := skipWs_not_ws rest (by decide)
            rw [hsk]
            simp
        | cons x t =>
            have hshape : dumpVal (.jarr (x :: t)) ++ rest =
                '[' :: (dumpVal x ++ (dumpElems t ++ ']' :: rest)) := by
              show (('[' :: (dumpVal x ++ dumpElems t)) ++ [']']) ++ rest = _
              simp [List.append_assoc]
            rw [hshape]
            simp only [parseValue, show ¬('[' = 'n') by decide, show ¬('[' = 't') by decide,
              show ¬('[' = 'f') by decide, show ¬('[' = quoteC) by decide, eq_self_iff_true,
              if_true, if_false, ite_true, ite_false]
            obtain ⟨c0, l0, hx0, hws0, hrb0, _⟩ := dump_head x
            rw [hx0, List.cons_append, skipWs_not_ws _ hws0]
            simp only []
            rw [if_neg hrb0]
            have hcl : canonicalL (x :: t) = true := by simpa [canonicalV] using hcan
            have hwE : eweightL (x :: t) ≤ f := by
              simp only [jweightV] at hw
              omega
            have hskE : skipWs (c0 :: (l0 ++ (dumpElems t ++ ']' :: rest))) =
                dumpVal x ++ (dumpElems t ++ ']' :: rest) := by
              rw [skipWs_not_ws _ hws0, ← List.cons_append, ← hx0]
            rw [(ih f (Nat.lt_succ_self f)).2.1 x t []
              (c0 :: (l0 ++ (dumpElems t ++ ']' :: rest))) rest hcl hwE hskE]
            rfl
    | jobj ms =>
        cases ms with
        | nil =>
            show parseValue (f + 1) (Char.ofNat 123 :: Char.ofNat 125 :: rest) = _
            simp only [parseValue, show ¬(Char.ofNat 123 = 'n') by decide,
              show ¬(Char.ofNat 123 = 't') by decide, show ¬(Char.ofNat 123 = 'f') by decide,
              show ¬(Char.ofNat 123 = quoteC) by decide, show ¬(Char.ofNat 123 = '[') by decide,
              eq_self_iff_true, if_true, if_false, ite_true, ite_false]
            have hsk : skipWs (Char.ofNat 125 :: rest) = Char.ofNat 125 :: rest :=
              skipWs_not_ws rest (by decide)
            rw [hsk]
            simp
        | cons m t =>
            obtain ⟨k, v⟩ := m
            have hshape : dumpVal (.jobj ((k, v) :: t)) ++ rest =
                Char.ofNat 123 ::
                  (dumpMember (k, v) ++ (dumpMembers t ++ Char.ofNat 125 :: rest)) := by
              show ((Char.ofNat 123 :: (dumpMember (k, v) ++ dumpMembers t)) ++
                  [Char.ofNat 125]) ++ rest = _
              simp [List.append_assoc]
            rw [hshape]
            simp only [parseValue, show ¬(Char.ofNat 123 = 'n') by decide,
              show ¬(Char.ofNat 123 = 't') by decide, show ¬(Char.ofNat 123 = 'f') by decide,
              show ¬(Char.ofNat 123 = quoteC) by decide, show ¬(Char.ofNat 123 = '[') by decide,
              eq_self_iff_true, if_true, if_false, ite_true, ite_false]
            rw [dumpMember_shape, skipWs_not_ws _ (by decide)]
            simp only []
            rw [if_neg (by decide)]
            have hcm : canonicalM ((k, v) :: t) = true := by
              have h2 := hcan
              simp only [canonicalV, Bool.and_eq_true] at h2
              exact h2.2
            have hwM : mweightL ((k, v) :: t) ≤ f := by
              simp only [jweightV] at hw
              omega
            have hM := (ih f (Nat.lt_succ_self f)).2.2 k v t [] rest hcm hwM
            rw [dumpMember_shape] at hM
            rw [hM]
            rfl
  · -- elements
    intro x xs acc cs rest hcl hw hcs
    cases fuel with
    | zero => simp only [eweightL] at hw; omega
    | succ f =>
    have hcx : canonicalV x = true ∧ canonicalL xs = true := by
      simpa [canonicalL, Bool.and_eq_true] using hcl
    have hwx : jweightV x ≤ f := by
      simp only [eweightL] at hw
      omega
    simp only [parseElems]
    rw [hcs, (ih f (Nat.lt_succ_self f)).1 x (dumpElems xs ++ ']' :: rest) hcx.1 hwx
      (numSafe_elems xs rest)]
    simp only []
    cases xs with
    | nil =>
        simp only [dumpElems, List.nil_append]
        rw [skipWs_not_ws _ (by decide)]
        simp only []
        rw [if_neg (by decide)]
        simp
    | cons y t =>
        simp only [dumpElems, List.cons_append]
        rw [skipWs_not_ws _ (by decide)]
        simp only []
        rw [if_pos trivial]
        have hwE : eweightL (y :: t) ≤ f := by
          simp only [eweightL] at hw ⊢
          omega
        have hskE : skipWs (' ' :: ((dumpVal y ++ dumpElems t) ++ ']' :: rest)) =
            dumpVal y ++ (dumpElems t ++ ']' :: rest) := by
          rw [skipWs_space, List.append_assoc]
          exact skipWs_dump y _
        rw [(ih f (Nat.lt_succ_self f)).2.1 y t (acc ++ [x])
          (' ' :: ((dumpVal y ++ dumpElems t) ++ ']' :: rest)) rest hcx.2 hwE hskE]
        simp
  · -- members
    intro k v ms acc rest hcm hw
    cases fuel with
    | zero => simp only [mweightL] at hw; omega
    | succ f =>
    have hcv : canonicalV v = true ∧ canonicalM ms = true := by
      simpa [canonicalM, Bool.and_eq_true] using hcm
    rw [dumpMember_shape]
    simp only [parseMembers, eq_self_iff_true, if_true, ite_true]
    have hlen : k.data.length <
        (k.data.flatMap escChar ++ quoteC :: ':' :: ' ' ::
          (dumpVal v ++ (dumpMembers ms ++ Char.ofNat 125 :: rest))).length + 1 := by
      have := flatMap_escChar_ge k.data
      simp only [List.length_append, List.length_cons]
      omega
    rw [parseStringChars_roundtrip k.data _ _ hlen]
    simp only []
    rw [skipWs_not_ws _ (by decide)]
    simp only []
    rw [if_pos trivial, skipWs_space]
    have hwv : jweightV v ≤ f := by
      simp only [mweightL] at hw
      omega
    rw [skipWs_dump v _, (ih f (Nat.lt_succ_self f)).1 v
      (dumpMembers ms ++ Char.ofNat 125 :: rest) hcv.1 hwv (numSafe_members ms rest)]
    simp only []
    cases ms with
    | nil =>
        simp only [dumpMembers, List.nil_append]
        rw [skipWs_not_ws _ (by decide)]
        simp only []
        rw [if_neg (by decide)]
        simp
    | cons m2 t2 =>
        obtain ⟨k2, v2⟩ := m2
        simp only [dumpMembers, List.cons_append]
        rw [skipWs_not_ws _ (by decide)]
        simp only []
        rw [if_pos trivial, skipWs_space]
        have hwM : mweightL ((k2, v2) :: t2) ≤ f := by
          simp only [mweightL] at hw ⊢
          omega
        have hM := (ih f (Nat.lt_succ_self f)).2.2 k2 v2 t2 (acc ++ [(k, v)]) rest hcv.2 hwM
        have hshape2 : (dumpMember (k2, v2) ++ dumpMembers t2) ++ Char.ofNat 125 :: rest =
            dumpMember (k2, v2) ++ (dumpMembers t2 ++ Char.ofNat 125 :: rest) := by
          simp [List.append_assoc]
        have hskM : skipWs (dumpMember (k2, v2) ++ (dumpMembers t2 ++ Char.ofNat 125 :: rest)) =
            dumpMember (k2, v2) ++ (dumpMembers t2 ++ Char.ofNat 125 :: rest) := by
          rw [dumpMember_shape, skipWs_not_ws _ (by decide)]
        rw [hshape2, hskM]
        rw [List.append_assoc] at hM
        exact hM

/-- `json.loads` inverts `json.dumps` exactly on canonical payloads. -/
theorem jsonLoads_dumps (v : JVal) (hc : canonicalV v = true) :
    jsonLoads (jsonDumps v) = .ok v := by
  unfold jsonLoads jsonDumps
  have hdata : (String.mk (dumpVal v)).data = dumpVal v := rfl
  rw [hdata]
  have hsk : skipWs (dumpVal v) = dumpVal v := by
    have := skipWs_dump v []
    simpa using this
  rw [hsk]
  have hb : jweightV v ≤ (dumpVal v).length + 1 :=
    le_trans (jweight_le_len v) (by omega)
  have hpv := (parse_dump_all ((dumpVal v).length + 1)).1 v [] hc hb rfl
  rw [List.append_nil] at hpv
  rw [hpv]
  rfl

/-- C5 (crypto round trip): for every canonically serializable payload `p`,
every key produced by `simulate_qkd_key`, and every nonce Fernet may draw,
`decrypt_data(encrypt_data(p, k), k)` returns exactly `p`: the token
authenticates under the encrypting key, and `json.loads` inverts
`json.dumps` on the protected plaintext. -/
theorem c5_crypto_roundtrip (p : JVal) (raw : List Nat) (nonce : Nat)
    (hp : canonicalV p = true) :
    decrypt_data (encrypt_data p (simulate_qkd_key raw) nonce) (simulate_qkd_key raw) =
      .ok p := by
  simp [decrypt_data, encrypt_data, jsonLoads_dumps p hp]

/-- C5 witness: the spec's own scenario record — a float amount `1.23` and a
country string — survives the round trip under the key derived from an
all-zero quantum byte draw. -/
theorem c5_witness :
    canonicalV (.jobj [("amount", .jfloat false [1, 2, 3] 0), ("country", .jstr "US")]) = true ∧
    decrypt_data
        (encrypt_data (.jobj [("amount", .jfloat false [1, 2, 3] 0), ("country", .jstr "US")])
          (simulate_qkd_key (List.replicate 32 0)) 7)
        (simulate_qkd_key (List.replicate 32 0)) =
      .ok (.jobj [("amount", .jfloat false [1, 2, 3] 0), ("country", .jstr "US")]) :=
  ⟨by decide, c5_crypto_roundtrip _ (List.replicate 32 0) 7 (by decide)⟩

/-- C6 (wrong-key rejection): decrypting a token under any validly generated
key other than the one it was encrypted under yields the single
authentication error `InvalidToken` — never a value: Fernet verifies the
integrity tag before any plaintext is released. -/
theorem c6_wrong_key_rejected (p : JVal) (raw1 raw2 : List Nat) (nonce : Nat)
    (hk : simulate_qkd_key raw1 ≠ simulate_qkd_key raw2) :
    decrypt_data (encrypt_data p (simulate_qkd_key raw1) nonce) (simulate_qkd_key raw2) =
      .error .invalidToken := by
  simp [decrypt_data, encrypt_data, hk]

/-- C6 witness: the keys derived from the all-zero and all-255 byte draws
differ, and decryption under the second key of a token made under the first
is rejected. -/
theorem c6_witness :
    simulate_qkd_key (List.replicate 32 0) ≠ simulate_qkd_key (List.replicate 32 255) ∧
    decrypt_data
        (encrypt_data .jnull (simulate_qkd_key (List.replicate 32 0)) 3)
        (simulate_qkd_key (List.replicate 32 255)) =
      .error .invalidToken :=
  ⟨by decide, c6_wrong_key_rejected .jnull (List.replicate 32 0) (List.replicate 32 255) 3
    (by decide)⟩

end QDW
